import Mathlib

/-!
Verification development for the Farsroid app-update scraper
(`scripts/app_updater.py`).  The Python functions are shallowly embedded as
executable Lean definitions; machine strings are Lean `String`s viewed as
lists of unicode characters.  Regular-expression matching is embedded by a
small backtracking engine whose alternative order mirrors Python `re`
(leftmost position first, greedy quantifiers, ordered alternation).

Unless stated otherwise in a doc comment, each definition is a direct
translation of the correspondingly named Python function.
-/

/-! ## Python string primitives -/

/-- Python string `<` : lexicographic comparison by unicode code point. -/
def pyLt : List Char → List Char → Bool
  | [], [] => false
  | [], _ :: _ => true
  | _ :: _, [] => false
  | a :: as, b :: bs =>
    if a.val < b.val then true
    else if b.val < a.val then false
    else pyLt as bs

/-- Python string `>` : `a > b` iff `b < a`. -/
def pyGt (a b : List Char) : Bool := pyLt b a

/-! ## §4.6 Update Decision Engine

`compare_versions` (app_updater.py lines 88–111).  The call to
`packaging.version.parse` is abstracted by a parameter
`parse : String → Option α` together with a strict-order test
`vlt : α → α → Bool` on parsed values (`Option.none` models the
`InvalidVersion`/`TypeError` exceptions that the Python code catches); the
function consumes them exactly as the Python body does. -/
def compare_versions {α : Type} (vlt : α → α → Bool)
    (parse : String → Option α) (current_v_str last_v_str : String) : Bool :=
  if current_v_str = "" then false
  else if last_v_str = "" ∨ last_v_str = "0.0.0" then true
  else
    match parse current_v_str, parse last_v_str with
    | some parsed_current, some parsed_last =>
      if vlt parsed_last parsed_current then true
      else if vlt parsed_current parsed_last then false
      else (current_v_str != last_v_str) &&
        pyGt current_v_str.data last_v_str.data
    | _, _ =>
      (current_v_str != last_v_str) && pyGt current_v_str.data last_v_str.data

/-- Split a character list at every `'.'` (like Python `str.split('.')`). -/
def splitDots : List Char → List (List Char)
  | [] => [[]]
  | c :: cs =>
    if c = '.' then [] :: splitDots cs
    else
      match splitDots cs with
      | [] => [[c]]
      | g :: gs => (c :: g) :: gs

/-- Numeric value of a digit string. -/
def digitsToNat (cs : List Char) : Nat :=
  cs.foldl (fun n c => 10 * n + (c.toNat - '0'.toNat)) 0

/-- Modelled from the spec: `packaging.version.parse` (PEP 440), restricted
to plain dotted-numeral release strings such as `"1.2.10"`.  Any string that
is not a nonempty dot-separated sequence of nonempty digit groups is treated
as unparsable (`none`), as `packaging` raises `InvalidVersion` there.  Used
only to instantiate the abstract parser in witnesses and counterexamples. -/
def numParse (s : String) : Option (List Nat) :=
  let groups := splitDots s.data
  if groups.all (fun g => !g.isEmpty && g.all Char.isDigit) then
    some (groups.map digitsToNat)
  else none

/-- Modelled from the spec: strict ordering of PEP 440 release tuples, which
compares componentwise after implicitly padding the shorter tuple with
zeros (so `[1,0]` and `[1,0,0]` are equal). -/
def relLt : List Nat → List Nat → Bool
  | [], ys => ys.any (fun y => 0 < y)
  | _ :: _, [] => false
  | x :: xs, y :: ys =>
    if x < y then true else if y < x then false else relLt xs ys

/-- C1: with both inputs nonempty, the last-known version neither empty nor
`"0.0.0"`, and both parsing, `compare_versions` returns `true` on a strictly
greater current version, `false` on a strictly smaller one, and on parsed
equality falls back to `current ≠ last ∧ current lexicographically greater`. -/
theorem C1_numeric_comparison {α : Type} (vlt : α → α → Bool)
    (parse : String → Option α) (cur last : String) (pc pl : α)
    (hc : cur ≠ "") (hl : last ≠ "") (hz : last ≠ "0.0.0")
    (hpc : parse cur = some pc) (hpl : parse last = some pl) :
    compare_versions vlt parse cur last =
      if vlt pl pc then true
      else if vlt pc pl then false
      else (cur != last) && pyGt cur.data last.data := by
  unfold compare_versions
  rw [if_neg hc, if_neg (by simp [hl, hz]), hpc, hpl]

/-- Witness for C1 at `cur = "1.2.10"`, `last = "1.2.9"` with the concrete
PEP 440 release model. -/
theorem C1_numeric_comparison_witness :
    compare_versions relLt numParse "1.2.10" "1.2.9" =
      if relLt [1, 2, 9] [1, 2, 10] then true
      else if relLt [1, 2, 10] [1, 2, 9] then false
      else (("1.2.10" : String) != "1.2.9") &&
        pyGt "1.2.10".data "1.2.9".data :=
  C1_numeric_comparison relLt numParse "1.2.10" "1.2.9" [1, 2, 10] [1, 2, 9]
    (by decide) (by decide) (by decide) (by decide) (by decide)

/-- C2: an empty current version is never an update; a nonempty current
version always is when the last-known version is empty or the placeholder
`"0.0.0"`. -/
theorem C2_empty_and_placeholder {α : Type} (vlt : α → α → Bool)
    (parse : String → Option α) (cur last : String) (hc : cur ≠ "") :
    compare_versions vlt parse "" last = false ∧
    compare_versions vlt parse cur "" = true ∧
    compare_versions vlt parse cur "0.0.0" = true := by
  refine ⟨by simp [compare_versions], ?_, ?_⟩ <;>
    · unfold compare_versions
      rw [if_neg hc, if_pos (by simp)]

/-- Witness for C2 at `cur = "3.1"`, `last = "9.9.9"` (the universally
quantified `last` of the first conjunct instantiated concretely). -/
theorem C2_empty_and_placeholder_witness :
    compare_versions relLt numParse "" "9.9.9" = false ∧
    compare_versions relLt numParse "3.1" "" = true ∧
    compare_versions relLt numParse "3.1" "0.0.0" = true :=
  C2_empty_and_placeholder relLt numParse "3.1" "9.9.9" (by decide)

/-- C6 counterexample: the claim says the result degrades to the
string-comparison rule whenever parsing of either input fails; but for
`current = "!"` (unparsable) and `last = "0.0.0"` the placeholder check
fires first and returns `true`, while the string rule
(`"!" ≠ "0.0.0" ∧ "!" > "0.0.0"`) is `false`. -/
theorem C6_counterexample :
    numParse "!" = none ∧
    compare_versions relLt numParse "!" "0.0.0" = true ∧
    ((("!" : String) != "0.0.0") && pyGt "!".data "0.0.0".data) = false := by
  refine ⟨by decide, ?_, by decide⟩
  unfold compare_versions
  rw [if_neg (by decide), if_pos (by simp)]

/-- C6 amended: `compare_versions` is total (it is a Lean function into
`Bool`, all parser failures being modelled by `none`), and whenever parsing
of either input fails *and* the early empty/placeholder branches do not fire
(current nonempty, last neither empty nor `"0.0.0"`), the result is exactly
the string-comparison rule. -/
theorem C6_degrades_to_string_comparison {α : Type} (vlt : α → α → Bool)
    (parse : String → Option α) (cur last : String)
    (hc : cur ≠ "") (hl : last ≠ "") (hz : last ≠ "0.0.0")
    (hfail : parse cur = none ∨ parse last = none) :
    compare_versions vlt parse cur last =
      ((cur != last) && pyGt cur.data last.data) := by
  unfold compare_versions
  rw [if_neg hc, if_neg (by simp [hl, hz])]
  rcases hfail with h | h
  · rw [h]
  · rw [h]
    cases hother : parse cur <;> rfl

/-- Witness for C6 amended at `cur = "2.0b"` (unparsable in the release
model), `last = "1.9"`. -/
theorem C6_degrades_to_string_comparison_witness :
    compare_versions relLt numParse "2.0b" "1.9" =
      ((("2.0b" : String) != "1.9") && pyGt "2.0b".data "1.9".data) :=
  C6_degrades_to_string_comparison relLt numParse "2.0b" "1.9"
    (by decide) (by decide) (by decide) (Or.inl (by decide))

/-! ## URL primitives

Models of `urllib.parse.urlparse(url).path`, `os.path.basename`,
`os.path.splitext` and `urllib.parse.unquote`, over character lists. -/

/-- Characters allowed in a URL scheme (`urllib.parse.scheme_chars`). -/
def isSchemeChar (c : Char) : Bool :=
  c.isAlphanum || c = '+' || c = '-' || c = '.'

/-- Drop a leading `scheme:` when the text before the first `:` is a
nonempty run of scheme characters, as `urlsplit` does. -/
def stripSchemePart (cs : List Char) : List Char :=
  let pre := cs.takeWhile (fun c => c ≠ ':')
  if pre.length < cs.length && 0 < pre.length && pre.all isSchemeChar then
    cs.drop (pre.length + 1)
  else cs

/-- Drop a leading `//netloc` up to the next `/`, `?` or `#`. -/
def stripNetloc : List Char → List Char
  | '/' :: '/' :: rest =>
    rest.dropWhile (fun c => c ≠ '/' && c ≠ '?' && c ≠ '#')
  | cs => cs

/-- `urlparse(url).path`: strip scheme and netloc, cut at fragment/query. -/
def urlPath (cs : List Char) : List Char :=
  ((stripNetloc (stripSchemePart cs)).takeWhile (fun c => c ≠ '#')).takeWhile
    (fun c => c ≠ '?')

/-- `os.path.basename`: the part after the last `/`. -/
def basenameL (cs : List Char) : List Char :=
  (cs.reverse.takeWhile (fun c => c ≠ '/')).reverse

/-- The extension part of `os.path.splitext` on a slash-free filename:
the suffix from the last dot, provided some non-dot character precedes
that dot (so `".bashrc"` and `"..."` have no extension). -/
def extSplit (cs : List Char) : List Char :=
  let tail := cs.reverse.takeWhile (fun c => c ≠ '.')
  if tail.length = cs.length then []
  else if (cs.take (cs.length - tail.length - 1)).any (fun c => c ≠ '.') then
    '.' :: tail.reverse
  else []

/-- Hexadecimal value of a character, if any. -/
def hexVal? (c : Char) : Option Nat :=
  if c.isDigit then some (c.toNat - '0'.toNat)
  else if 'a' ≤ c ∧ c ≤ 'f' then some (c.toNat - 'a'.toNat + 10)
  else if 'A' ≤ c ∧ c ≤ 'F' then some (c.toNat - 'A'.toNat + 10)
  else none

/-- `urllib.parse.unquote` restricted to single-byte escapes: each valid
`%xx` pair is decoded to the character with that code (the Python original
additionally reassembles multi-byte UTF-8 sequences, which the inputs used
here do not contain); invalid escapes are left untouched. -/
def unquoteL : List Char → List Char
  | [] => []
  | '%' :: a :: b :: rest =>
    match hexVal? a, hexVal? b with
    | some x, some y => Char.ofNat (16 * x + y) :: unquoteL rest
    | _, _ => '%' :: unquoteL (a :: b :: rest)
  | c :: rest => c :: unquoteL rest

/-- Substring test, Python `pat in cs`. -/
def containsL : List Char → List Char → Bool
  | pat, [] => pat.isEmpty
  | pat, c :: cs => pat.isPrefixOf (c :: cs) || containsL pat cs

/-- Suffix test over character lists. -/
def endsWithL (suf cs : List Char) : Bool := suf.isSuffixOf cs

/-! ## Regex engine

A small backtracking engine: a matcher maps an input suffix to the list of
possible remainders after consuming a match of the sub-pattern, in exactly
the order Python's `re` backtracking explores them (greedy quantifiers try
longer matches first, ordered alternation, option tries the present branch
first).  Repetition takes explicit fuel; every repeated sub-pattern below
consumes at least one character, so fuel `length + 1` is never exhausted. -/

/-- Matchers: input suffix to candidate remainders in preference order. -/
def Matcher : Type := List Char → List (List Char)

/-- Single character from a class. -/
def chCls (f : Char → Bool) : Matcher := fun cs =>
  match cs with
  | [] => []
  | c :: rest => if f c then [rest] else []

/-- Concatenation. -/
def seqM (a b : Matcher) : Matcher := fun cs => (a cs).flatMap b

/-- Ordered alternation. -/
def altM (a b : Matcher) : Matcher := fun cs => a cs ++ b cs

/-- Empty pattern. -/
def epsM : Matcher := fun cs => [cs]

/-- Greedy `?`. -/
def optM (a : Matcher) : Matcher := altM a epsM

/-- Greedy `+` (with fuel). -/
def rep1M : Nat → Matcher → Matcher
  | 0, _ => fun _ => []
  | n + 1, a => fun cs => (a cs).flatMap (fun r => rep1M n a r ++ [r])

/-- Greedy `*` (with fuel). -/
def starM (n : Nat) (a : Matcher) : Matcher := fun cs => rep1M n a cs ++ [cs]

/-- Python `\w` restricted to the alphabets this program handles: ASCII
letters, digits and underscore, plus the Arabic-script letters and digits
used by the Persian vocabulary (the full Unicode `\w` of Python is larger,
but agrees on every string occurring in this code and its pages). -/
def isWordChar (c : Char) : Bool :=
  c.isAlphanum || c = '_' ||
  (0x621 ≤ c.toNat && c.toNat ≤ 0x64A) ||
  (0x660 ≤ c.toNat && c.toNat ≤ 0x669) ||
  (0x66E ≤ c.toNat && c.toNat ≤ 0x6D5)

/-- Python `\s` restricted to ASCII whitespace. -/
def isSpaceChar (c : Char) : Bool :=
  c = ' ' || c = '\t' || c = '\n' || c = '\r' || c.toNat = 0xB || c.toNat = 0xC

/-! ## §4.1 Version Extractor

The two `VERSION_REGEX_PATTERNS` (app_updater.py lines 28–31)

  `(?<![\w.-])(?:[vV])?(\d+(?:\.\d+){1,3}(?:(?:[-._]?[a-zA-Z0-9]+)+)?)(?![.\w])`
  `(?<![\w.-])(?:[vV])?(\d+(?:\.\d+){1,2})(?![.\w])`

and the fallback pattern of `extract_version_from_text_or_url` (line 271)

  `(\d+\.\d+(?:\.\d+){0,2}(?:[.-]?[a-zA-Z0-9]+)*)` -/

/-- `\d`. -/
def digitM : Matcher := chCls Char.isDigit

/-- `\.\d+`. -/
def dotDigits (n : Nat) : Matcher :=
  seqM (chCls (fun c => c = '.')) (rep1M n digitM)

/-- `(?:[-._]?[a-zA-Z0-9]+)` — one suffix unit of the first pattern. -/
def unitP1 (n : Nat) : Matcher :=
  seqM (optM (chCls (fun c => c = '-' || c = '.' || c = '_')))
    (rep1M n (chCls Char.isAlphanum))

/-- Capture group of the first search pattern:
`\d+(?:\.\d+){1,3}(?:(?:[-._]?[a-zA-Z0-9]+)+)?`. -/
def groupP1 (n : Nat) : Matcher :=
  seqM (rep1M n digitM)
    (seqM
      (seqM (dotDigits n) (optM (seqM (dotDigits n) (optM (dotDigits n)))))
      (optM (rep1M n (unitP1 n))))

/-- Capture group of the second search pattern: `\d+(?:\.\d+){1,2}`. -/
def groupP2 (n : Nat) : Matcher :=
  seqM (rep1M n digitM) (seqM (dotDigits n) (optM (dotDigits n)))

/-- `(?:[.-]?[a-zA-Z0-9]+)` — one suffix unit of the fallback pattern. -/
def unitFB (n : Nat) : Matcher :=
  seqM (optM (chCls (fun c => c = '.' || c = '-')))
    (rep1M n (chCls Char.isAlphanum))

/-- Capture group of the fallback pattern:
`\d+\.\d+(?:\.\d+){0,2}(?:[.-]?[a-zA-Z0-9]+)*`. -/
def groupFB (n : Nat) : Matcher :=
  seqM (rep1M n digitM)
    (seqM (dotDigits n)
      (seqM (optM (seqM (dotDigits n) (optM (dotDigits n))))
        (starM n (unitFB n))))

/-- The negative lookahead `(?![.\w])` at the match end. -/
def lookaheadOK (cs : List Char) : Bool :=
  match cs with
  | [] => true
  | c :: _ => !(c = '.' || isWordChar c)

/-- The negative lookbehind `(?<![\w.-])` at the match start. -/
def lookbehindOK : Option Char → Bool
  | none => true
  | some c => !(isWordChar c || c = '.' || c = '-')

/-- A resolved match: text before the match, the optional `v`/`V` marker,
the captured group, and the text after the match. -/
structure VMatch where
  pre : List Char
  vtag : List Char
  cap : List Char
  post : List Char
deriving DecidableEq, Repr

/-- Try `(?:[vV])?(group)(?![.\w])` at one position (lookbehind already
checked by the caller): the optional marker branch is explored first, and
within it the group's alternatives in engine order, keeping the first
remainder that passes the lookahead. -/
def matchPrimAt (group : Matcher) (cs : List Char) :
    Option (List Char × List Char × List Char) :=
  match cs with
  | c :: rest =>
    if c = 'v' || c = 'V' then
      match (group rest).find? lookaheadOK with
      | some r => some ([c], rest.take (rest.length - r.length), r)
      | none =>
        match (group cs).find? lookaheadOK with
        | some r => some ([], cs.take (cs.length - r.length), r)
        | none => none
    else
      match (group cs).find? lookaheadOK with
      | some r => some ([], cs.take (cs.length - r.length), r)
      | none => none
  | [] =>
    match (group []).find? lookaheadOK with
    | some r => some ([], [], r)
    | none => none

/-- `re.search` for the two primary patterns: positions left to right,
skipping positions whose lookbehind fails; `prev` is the character before
the current position and `acc` the reversed consumed prefix. -/
def searchPrim (group : Matcher) :
    Option Char → List Char → List Char → Option VMatch
  | prev, acc, [] =>
    if lookbehindOK prev then
      match matchPrimAt group [] with
      | some (vtag, cap, rest) => some ⟨acc.reverse, vtag, cap, rest⟩
      | none => none
    else none
  | prev, acc, c :: t =>
    if lookbehindOK prev then
      match matchPrimAt group (c :: t) with
      | some (vtag, cap, rest) => some ⟨acc.reverse, vtag, cap, rest⟩
      | none => searchPrim group (some c) (c :: acc) t
    else searchPrim group (some c) (c :: acc) t

/-- `re.search` for the fallback pattern (no lookarounds, no marker):
first position where the group matches, first alternative there. -/
def searchFB (group : Matcher) : List Char → List Char → Option VMatch
  | acc, [] =>
    match (group []).head? with
    | some r => some ⟨acc.reverse, [], [], r⟩
    | none => none
  | acc, c :: t =>
    match (group (c :: t)).head? with
    | some r =>
      some ⟨acc.reverse, [], (c :: t).take ((c :: t).length - r.length), r⟩
    | none => searchFB group (c :: acc) t

/-- Fuel that the repetition operators can never exhaust on this input. -/
def fuelOf (cs : List Char) : Nat := cs.length + 1

/-- Search with the first primary pattern. -/
def searchPattern1 (cs : List Char) : Option VMatch :=
  searchPrim (groupP1 (fuelOf cs)) none [] cs

/-- Search with the second primary pattern. -/
def searchPattern2 (cs : List Char) : Option VMatch :=
  searchPrim (groupP2 (fuelOf cs)) none [] cs

/-- The two primary patterns tried in order on one source. -/
def primSearch (cs : List Char) : Option VMatch :=
  match searchPattern1 cs with
  | some m => some m
  | none => searchPattern2 cs

/-- Search with the permissive fallback pattern. -/
def fbSearch (cs : List Char) : Option VMatch :=
  searchFB (groupFB (fuelOf cs)) [] cs

/-- Python `str.strip("-_ ")`. -/
def stripSeps (cs : List Char) : List Char :=
  let f := fun c => c = '-' || c = '_' || c = ' '
  ((cs.dropWhile f).reverse.dropWhile f).reverse

/-- `extract_version_from_text_or_url` (app_updater.py lines 261–278):
primary patterns on the text, then on the URL filename, then the permissive
fallback on both, returning the first captured group stripped of stray
`-`, `_`, space. -/
def extract_version_from_text_or_url
    (text_content url_content : String) : Option String :=
  match (if text_content = "" then none else primSearch text_content.data) with
  | some m => some ⟨stripSeps m.cap⟩
  | none =>
    match (if url_content = "" then none
           else primSearch url_content.data) with
    | some m => some ⟨stripSeps m.cap⟩
    | none =>
      match (if text_content = "" then none
             else fbSearch text_content.data) with
      | some m => some ⟨stripSeps m.cap⟩
      | none =>
        match (if url_content = "" then none
               else fbSearch url_content.data) with
        | some m => some ⟨stripSeps m.cap⟩
        | none => none

/-! ## Engine lemmas for C4 -/

/-- A matcher only ever returns suffixes of its input. -/
def Shrinking (a : Matcher) : Prop := ∀ cs r, r ∈ a cs → r <:+ cs

theorem shrinking_chCls (f : Char → Bool) : Shrinking (chCls f) := by
  intro cs r hr
  cases cs with
  | nil => simp [chCls] at hr
  | cons c t =>
    simp only [chCls] at hr
    by_cases hf : f c = true
    · rw [if_pos hf] at hr
      have hrt : r = t := by simpa using hr
      rw [hrt]
      exact List.suffix_cons c t
    · rw [if_neg hf] at hr
      simp at hr

theorem shrinking_seqM {a b : Matcher} (ha : Shrinking a) (hb : Shrinking b) :
    Shrinking (seqM a b) := by
  intro cs r hr
  obtain ⟨mid, hmid, hr2⟩ := List.mem_flatMap.mp hr
  exact (hb mid r hr2).trans (ha cs mid hmid)

theorem shrinking_altM {a b : Matcher} (ha : Shrinking a) (hb : Shrinking b) :
    Shrinking (altM a b) := by
  intro cs r hr
  rcases List.mem_append.mp hr with h | h
  · exact ha cs r h
  · exact hb cs r h

theorem shrinking_epsM : Shrinking epsM := by
  intro cs r hr
  simp [epsM] at hr
  subst hr
  exact List.suffix_rfl

theorem shrinking_optM {a : Matcher} (ha : Shrinking a) :
    Shrinking (optM a) := shrinking_altM ha shrinking_epsM

theorem shrinking_rep1M {a : Matcher} (ha : Shrinking a) :
    ∀ n, Shrinking (rep1M n a) := by
  intro n
  induction n with
  | zero => intro cs r hr; simp [rep1M] at hr
  | succ k ih =>
    intro cs r hr
    simp only [rep1M] at hr
    obtain ⟨mid, hmid, hr2⟩ := List.mem_flatMap.mp hr
    rcases List.mem_append.mp hr2 with h | h
    · exact (ih mid r h).trans (ha cs mid hmid)
    · simp at h
      subst h
      exact ha cs r hmid

theorem shrinking_starM {a : Matcher} (ha : Shrinking a) (n : Nat) :
    Shrinking (starM n a) := by
  intro cs r hr
  rcases List.mem_append.mp hr with h | h
  · exact shrinking_rep1M ha n cs r h
  · simp at h
    subst h
    exact List.suffix_rfl

theorem shrinking_dotDigits (n : Nat) : Shrinking (dotDigits n) :=
  shrinking_seqM (shrinking_chCls _) (shrinking_rep1M (shrinking_chCls _) n)

theorem shrinking_groupP1 (n : Nat) : Shrinking (groupP1 n) :=
  shrinking_seqM (shrinking_rep1M (shrinking_chCls _) n)
    (shrinking_seqM
      (shrinking_seqM (shrinking_dotDigits n)
        (shrinking_optM (shrinking_seqM (shrinking_dotDigits n)
          (shrinking_optM (shrinking_dotDigits n)))))
      (shrinking_optM (shrinking_rep1M
        (shrinking_seqM (shrinking_optM (shrinking_chCls _))
          (shrinking_rep1M (shrinking_chCls _) n)) n)))

theorem shrinking_groupP2 (n : Nat) : Shrinking (groupP2 n) :=
  shrinking_seqM (shrinking_rep1M (shrinking_chCls _) n)
    (shrinking_seqM (shrinking_dotDigits n)
      (shrinking_optM (shrinking_dotDigits n)))

/-- Decompose the input around a returned remainder. -/
theorem take_of_append (p r cs : List Char) (h : p ++ r = cs) :
    cs.take (cs.length - r.length) = p := by
  subst h
  rw [List.length_append, Nat.add_sub_cancel]
  exact List.take_left p r

/-- Common branch: a remainder accepted by `find? lookaheadOK` recovers a
split of the input and passes the lookahead. -/
theorem findCase_split {group : Matcher} (hg : Shrinking group)
    {cs r : List Char} (hf : (group cs).find? lookaheadOK = some r) :
    ∃ p, p ++ r = cs ∧ cs.take (cs.length - r.length) = p :=
  have hmem := List.mem_of_find?_eq_some hf
  have hsuf := hg cs r hmem
  ⟨hsuf.choose, hsuf.choose_spec, take_of_append _ r cs hsuf.choose_spec⟩

/-- What a successful `matchPrimAt` means: the position splits as optional
marker, capture, remainder, and the remainder passes the lookahead. -/
theorem matchPrimAt_spec {group : Matcher} (hg : Shrinking group)
    {cs vtag cap rest : List Char}
    (h : matchPrimAt group cs = some (vtag, cap, rest)) :
    cs = vtag ++ cap ++ rest ∧ (vtag = [] ∨ vtag = ['v'] ∨ vtag = ['V']) ∧
    lookaheadOK rest = true := by
  cases cs with
  | nil =>
    simp only [matchPrimAt] at h
    cases hf : (group []).find? lookaheadOK with
    | none => rw [hf] at h; exact absurd h (by simp)
    | some r =>
      rw [hf] at h
      have h' := Option.some.inj h
      have h1 : ([] : List Char) = vtag := congrArg (fun x => x.1) h'
      have h3 : r = rest := congrArg (fun x => x.2.2) h'
      have h2 : ([] : List Char) = cap := congrArg (fun x => x.2.1) h'
      subst h1; subst h2; subst h3
      obtain ⟨p, hp, _⟩ := findCase_split hg hf
      have hr0 : r = [] := (List.append_eq_nil.mp hp).2
      exact ⟨by rw [hr0]; rfl, Or.inl rfl, List.find?_some hf⟩
  | cons c t =>
    simp only [matchPrimAt] at h
    by_cases hv : (c = 'v' || c = 'V') = true
    · rw [if_pos hv] at h
      cases hf : (group t).find? lookaheadOK with
      | some r =>
        rw [hf] at h
        have h' := Option.some.inj h
        have h1 : [c] = vtag := congrArg (fun x => x.1) h'
        have h2 : t.take (t.length - r.length) = cap :=
          congrArg (fun x => x.2.1) h'
        have h3 : r = rest := congrArg (fun x => x.2.2) h'
        subst h1; subst h3
        obtain ⟨p, hp, htake⟩ := findCase_split hg hf
        refine ⟨?_, ?_, List.find?_some hf⟩
        · rw [← h2, htake, ← hp]
          rfl
        · have hv' : c = 'v' ∨ c = 'V' := by simpa using hv
          rcases hv' with rfl | rfl
          · exact Or.inr (Or.inl rfl)
          · exact Or.inr (Or.inr rfl)
      | none =>
        rw [hf] at h
        cases hf2 : (group (c :: t)).find? lookaheadOK with
        | none => rw [hf2] at h; exact absurd h (by simp)
        | some r =>
          rw [hf2] at h
          have h' := Option.some.inj h
          have h1 : ([] : List Char) = vtag := congrArg (fun x => x.1) h'
          have h2 : (c :: t).take ((c :: t).length - r.length) = cap :=
            congrArg (fun x => x.2.1) h'
          have h3 : r = rest := congrArg (fun x => x.2.2) h'
          subst h1; subst h3
          obtain ⟨p, hp, htake⟩ := findCase_split hg hf2
          refine ⟨?_, Or.inl rfl, List.find?_some hf2⟩
          rw [← h2, htake, List.nil_append, ← hp]
    · rw [if_neg hv] at h
      cases hf2 : (group (c :: t)).find? lookaheadOK with
      | none => rw [hf2] at h; exact absurd h (by simp)
      | some r =>
        rw [hf2] at h
        have h' := Option.some.inj h
        have h1 : ([] : List Char) = vtag := congrArg (fun x => x.1) h'
        have h2 : (c :: t).take ((c :: t).length - r.length) = cap :=
          congrArg (fun x => x.2.1) h'
        have h3 : r = rest := congrArg (fun x => x.2.2) h'
        subst h1; subst h3
        obtain ⟨p, hp, htake⟩ := findCase_split hg hf2
        refine ⟨?_, Or.inl rfl, List.find?_some hf2⟩
        rw [← h2, htake, List.nil_append, ← hp]

/-- The character just before the current scan position, given the
character before the skipped text and the skipped text itself. -/
def lastO (prev : Option Char) : List Char → Option Char
  | [] => prev
  | c :: skip => lastO (some c) skip

theorem lastO_getLast :
    ∀ (skip : List Char) (c : Char) (prev : Option Char),
      lastO prev (c :: skip) = (c :: skip).getLast? := by
  intro skip
  induction skip with
  | nil => intro c prev; simp [lastO]
  | cons d ds ih =>
    intro c prev
    show lastO (some c) (d :: ds) = (c :: d :: ds).getLast?
    rw [ih d (some c), List.getLast?_cons_cons]

theorem lastO_none (skip : List Char) : lastO none skip = skip.getLast? := by
  cases skip with
  | nil => simp [lastO]
  | cons c t => exact lastO_getLast t c none

/-- Invariant of the primary-pattern scan: a successful search splits the
input at a position whose lookbehind holds, into skipped text, optional
marker, capture and remainder, with the lookahead holding after. -/
theorem searchPrim_spec {group : Matcher} (hg : Shrinking group) :
    ∀ (cs : List Char) (prev : Option Char) (acc : List Char) (m : VMatch),
      searchPrim group prev acc cs = some m →
      ∃ skip, m.pre = acc.reverse ++ skip ∧
        cs = skip ++ m.vtag ++ m.cap ++ m.post ∧
        lookbehindOK (lastO prev skip) = true ∧
        (m.vtag = [] ∨ m.vtag = ['v'] ∨ m.vtag = ['V']) ∧
        lookaheadOK m.post = true := by
  intro cs
  induction cs with
  | nil =>
    intro prev acc m h
    simp only [searchPrim] at h
    by_cases hb : lookbehindOK prev = true
    · rw [if_pos hb] at h
      cases hm : matchPrimAt group [] with
      | none => rw [hm] at h; exact absurd h (by simp)
      | some x =>
        obtain ⟨vtag, cap, rest⟩ := x
        rw [hm] at h
        have hm2 := Option.some.inj h
        subst hm2
        obtain ⟨hsplit, hshape, hla⟩ := matchPrimAt_spec hg hm
        refine ⟨[], (List.append_nil _).symm, ?_, hb, hshape, hla⟩
        rw [List.nil_append]
        exact hsplit
    · rw [if_neg hb] at h; exact absurd h (by simp)
  | cons c t ih =>
    intro prev acc m h
    simp only [searchPrim] at h
    by_cases hb : lookbehindOK prev = true
    · rw [if_pos hb] at h
      cases hm : matchPrimAt group (c :: t) with
      | none =>
        rw [hm] at h
        obtain ⟨skip, h1, h2, h3, h4, h5⟩ := ih (some c) (c :: acc) m h
        refine ⟨c :: skip, ?_, ?_, h3, h4, h5⟩
        · rw [h1, List.reverse_cons, List.append_assoc]
          rfl
        · simp [h2]
      | some x =>
        obtain ⟨vtag, cap, rest⟩ := x
        rw [hm] at h
        have hm2 := Option.some.inj h
        subst hm2
        obtain ⟨hsplit, hshape, hla⟩ := matchPrimAt_spec hg hm
        refine ⟨[], (List.append_nil _).symm, ?_, hb, hshape, hla⟩
        rw [List.nil_append]
        exact hsplit
    · rw [if_neg hb] at h
      obtain ⟨skip, h1, h2, h3, h4, h5⟩ := ih (some c) (c :: acc) m h
      refine ⟨c :: skip, ?_, ?_, h3, h4, h5⟩
      · rw [h1, List.reverse_cons, List.append_assoc]
        rfl
      · simp [h2]

/-- The claim's occurrence predicate over a source string: some occurrence
of `v` is neither directly preceded nor directly followed by a word
character or a dot. -/
def occursCleanGo (v : List Char) : Option Char → List Char → Bool
  | prev, cs =>
    (v.isPrefixOf cs &&
      (match prev with
       | none => true
       | some c => !(isWordChar c || c = '.')) &&
      (match (cs.drop v.length).head? with
       | none => true
       | some c => !(isWordChar c || c = '.'))) ||
    (match cs with
     | [] => false
     | c :: t => occursCleanGo v (some c) t)

/-- Occurrence with clean word boundaries anywhere in the source. -/
def occursClean (v s : List Char) : Bool := occursCleanGo v none s

/-- C4 counterexample: on the input text `"x1.2"` (empty URL source) both
primary patterns fail (their lookbehind excludes a preceding word
character), the permissive fallback fires, and the returned version
`"1.2"` occurs in the source only directly after the word character `x` —
the claimed boundary property fails. -/
theorem C4_counterexample :
    extract_version_from_text_or_url "x1.2" "" = some "1.2" ∧
    occursClean "1.2".data "x1.2".data = false := by
  constructor <;> decide

/-- C4 amended: every match found by one of the two *primary* patterns
splits its source so that the character before the match (optional `v`/`V`
marker included) is not a word character, dot or hyphen, and the character
after the capture is not a word character or dot; the permissive fallback
pattern gives no such guarantee (see the counterexample). -/
theorem C4_primary_boundaries (s : List Char) (m : VMatch)
    (h : primSearch s = some m) :
    s = m.pre ++ m.vtag ++ m.cap ++ m.post ∧
    (m.vtag = [] ∨ m.vtag = ['v'] ∨ m.vtag = ['V']) ∧
    lookbehindOK m.pre.getLast? = true ∧
    lookaheadOK m.post = true := by
  have main : ∀ (g : Matcher), Shrinking g →
      searchPrim g none [] s = some m →
      s = m.pre ++ m.vtag ++ m.cap ++ m.post ∧
      (m.vtag = [] ∨ m.vtag = ['v'] ∨ m.vtag = ['V']) ∧
      lookbehindOK m.pre.getLast? = true ∧
      lookaheadOK m.post = true := by
    intro g hgs hgm
    obtain ⟨skip, h1, h2, h3, h4, h5⟩ := searchPrim_spec hgs s none [] m hgm
    have hpre : m.pre = skip := by simpa using h1
    subst hpre
    exact ⟨h2, h4, by rwa [← lastO_none], h5⟩
  unfold primSearch at h
  cases h1 : searchPattern1 s with
  | some m1 =>
    rw [h1] at h
    cases h
    exact main _ (shrinking_groupP1 _) h1
  | none =>
    rw [h1] at h
    exact main _ (shrinking_groupP2 _) h

/-- Witness for C4 amended at the source `"app v1.2.3"`, matched by the
first primary pattern with marker `v`, capture `1.2.3`. -/
theorem C4_primary_boundaries_witness :
    "app v1.2.3".data =
      (⟨"app ".data, ['v'], "1.2.3".data, []⟩ : VMatch).pre ++
        (⟨"app ".data, ['v'], "1.2.3".data, []⟩ : VMatch).vtag ++
        (⟨"app ".data, ['v'], "1.2.3".data, []⟩ : VMatch).cap ++
        (⟨"app ".data, ['v'], "1.2.3".data, []⟩ : VMatch).post ∧
    ((⟨"app ".data, ['v'], "1.2.3".data, []⟩ : VMatch).vtag = [] ∨
      (⟨"app ".data, ['v'], "1.2.3".data, []⟩ : VMatch).vtag = ['v'] ∨
      (⟨"app ".data, ['v'], "1.2.3".data, []⟩ : VMatch).vtag = ['V']) ∧
    lookbehindOK
      (⟨"app ".data, ['v'], "1.2.3".data, []⟩ : VMatch).pre.getLast? = true ∧
    lookaheadOK (⟨"app ".data, ['v'], "1.2.3".data, []⟩ : VMatch).post = true :=
  C4_primary_boundaries "app v1.2.3".data
    ⟨"app ".data, ['v'], "1.2.3".data, []⟩ (by decide)

/-! ## String rewriting primitives

Models of `str.replace`, `str.strip`, whole-word `re.search`, and the
specific `re.sub` calls of the program, all over character lists and all
executable.  Substitution scanners carry fuel; every pattern used consumes
at least one character per match, so fuel `length` never runs out. -/

/-- Strip characters satisfying `f` from both ends. -/
def stripAny (f : Char → Bool) (cs : List Char) : List Char :=
  ((cs.dropWhile f).reverse.dropWhile f).reverse

/-- Python `str.strip()` (ASCII whitespace). -/
def stripWs (cs : List Char) : List Char := stripAny isSpaceChar cs

/-- `re.sub(r'X+', rep, ·)` for a character class `X`: collapse each
maximal run of characters satisfying `f` to the single character `rep`. -/
def collapseRuns (f : Char → Bool) (rep : Char) : List Char → List Char
  | [] => []
  | c :: t =>
    if f c then
      match t with
      | [] => [rep]
      | d :: t2 =>
        if f d then collapseRuns f rep (d :: t2) else rep :: collapseRuns f rep (d :: t2)
    else c :: collapseRuns f rep t

/-- Split at every occurrence of `sep` (Python `str.split(sep)` for a
single-character separator). -/
def splitOnChar (sep : Char) : List Char → List (List Char)
  | [] => [[]]
  | c :: cs =>
    if c = sep then [] :: splitOnChar sep cs
    else
      match splitOnChar sep cs with
      | [] => [[c]]
      | g :: gs => (c :: g) :: gs

/-- Python `sep.join(strings)` for a one-character separator. -/
def joinWith (sep : Char) : List String → List Char
  | [] => []
  | [x] => x.data
  | x :: y :: xs => x.data ++ sep :: joinWith sep (y :: xs)

/-- Is an optional character a word character (`none` is not)? -/
def optWord : Option Char → Bool
  | none => false
  | some c => isWordChar c

/-- Python `\b` between two (optional) neighbour characters. -/
def xorB (a b : Option Char) : Bool := optWord a != optWord b

/-- Generic substitution scanner: at each position of the input, `matchAt`
receives the previous original character and the remaining text and, on a
match, returns the consumed text and the remainder; the match is replaced
by `rep` and scanning continues after it, as `re.sub`/`str.replace` do. -/
def scanSub (rep : List Char)
    (matchAt : Option Char → List Char → Option (List Char × List Char)) :
    Nat → Option Char → List Char → List Char
  | _, _, [] => []
  | 0, _, cs => cs
  | n + 1, prev, c :: t =>
    match matchAt prev (c :: t) with
    | some (con, rest) => rep ++ scanSub rep matchAt n (lastO prev con) rest
    | none => c :: scanSub rep matchAt n (some c) t

/-- Literal (non-regex) match for `str.replace`. -/
def litMatchAt (lit : List Char) (_prev : Option Char) (cs : List Char) :
    Option (List Char × List Char) :=
  if lit.isPrefixOf cs && !lit.isEmpty then some (lit, cs.drop lit.length)
  else none

/-- Python `str.replace(lit, rep)`. -/
def replaceAll (lit rep cs : List Char) : List Char :=
  scanSub rep (litMatchAt lit) cs.length none cs

/-- `re.search(r'\b' + re.escape(kw) + r'\b', ·, re.IGNORECASE)` scan,
tracking the character before the current position: an occurrence of the
(nonempty) literal `kw`, compared case-insensitively, whose two ends lie on
word boundaries. -/
def wwFind (kw : List Char) : Option Char → List Char → Bool
  | prev, cs =>
    ((cs.take kw.length).map Char.toLower = kw.map Char.toLower &&
      !kw.isEmpty && xorB prev cs.head? &&
      xorB (cs.take kw.length).getLast? (cs.drop kw.length).head?) ||
    (match cs with
     | [] => false
     | c :: t => wwFind kw (some c) t)

/-- Whole-word case-insensitive search from the start of the text. -/
def wwSearch (kw cs : List Char) : Bool := wwFind kw none cs

/-- `re.sub(r'\b' + re.escape(kw) + r'\b', '', ·, re.IGNORECASE)`:
one whole-word occurrence matched at the scan position. -/
def kwMatchAt (kw : List Char) (prev : Option Char) (cs : List Char) :
    Option (List Char × List Char) :=
  if (cs.take kw.length).map Char.toLower = kw.map Char.toLower &&
      !kw.isEmpty && xorB prev cs.head? &&
      xorB (cs.take kw.length).getLast? (cs.drop kw.length).head? then
    some (cs.take kw.length, cs.drop kw.length)
  else none

/-- Delete all whole-word occurrences of `kw` (case-insensitive). -/
def kwSubAll (kw cs : List Char) : List Char :=
  scanSub [] (kwMatchAt kw) cs.length none cs

/-! ## §4.2 Text Normalizer -/

/-- Does `\s*\((?:www\.)?farsroid\.com.*?\)\s*$` match starting exactly
here?  The lazy middle expands until a `)` is followed by only whitespace
(the dot of the pattern does not cross a newline). -/
def existsCloseParen : List Char → Bool
  | [] => false
  | c :: t => (c = ')' && t.all isSpaceChar) || (c ≠ '\n' && existsCloseParen t)

/-- Match of the trailing `(farsroid.com …)` attribution at one position. -/
def farsParenAt (cs : List Char) : Bool :=
  let c1 := cs.dropWhile isSpaceChar
  match c1 with
  | '(' :: c2 =>
    let c3 := if "www.".data.isPrefixOf c2 then c2.drop 4 else c2
    "farsroid.com".data.isPrefixOf (c3.map Char.toLower) &&
      existsCloseParen (c3.drop 12)
  | _ => false

/-- Match of the trailing `- Farsroid` site suffix
(`\s*[-–—]\s*Farsroid\s*$`, case-insensitive) at one position. -/
def farsSuffixAt (cs : List Char) : Bool :=
  let c1 := cs.dropWhile isSpaceChar
  match c1 with
  | c :: t =>
    (c = '-' || c = '–' || c = '—') &&
      (let c2 := t.dropWhile isSpaceChar
       "farsroid".data.isPrefixOf (c2.map Char.toLower) &&
         (c2.drop 8).all isSpaceChar)
  | [] => false

/-- Delete from the first position where an end-anchored pattern matches
(the rest of the string is the match, replaced by nothing). -/
def cutAtMatch (p : List Char → Bool) : List Char → List Char
  | [] => []
  | c :: t => if p (c :: t) then [] else c :: cutAtMatch p t

/-- `sanitize_text` (app_updater.py lines 113–131). -/
def sanitize_text (text : String) (for_filename : Bool) : String :=
  if text = "" then ""
  else
    let t := stripWs text.data
    let t := stripWs (cutAtMatch farsParenAt t)
    if for_filename then
      let t := t.map Char.toLower
      let t := t.map (fun c => if c = '–' || c = '—' then '-' else c)
      let t := t.map (fun c =>
        if c = '<' || c = '>' || c = ':' || c = '"' || c = '/' || c = '\\' ||
            c = '|' || c = '?' || c = '*' || c = '(' || c = ')' || c = '[' ||
            c = ']' then '_' else c)
      let t := collapseRuns isSpaceChar '_' t
      let t := replaceAll "-_".data "_".data t
      let t := replaceAll "_-".data "_".data t
      let t := collapseRuns (fun c => c = '_') '_' t
      ⟨stripAny (fun c => c = '_') t⟩
    else
      let t := t.map Char.toLower
      let t := t.map (fun c => if c = '–' || c = '—' then '-' else c)
      let t := t.filter (fun c => !(c = '(' || c = ')' || c = '[' || c = ']'))
      let t := collapseRuns isSpaceChar '_' t
      ⟨stripAny (fun c => c = '_') t⟩

/-! ## Cleaning patterns

The `VERSION_PATTERNS_FOR_CLEANING` (app_updater.py lines 32–36)

  `\s*[vV]?\d+(?:\.\d+){1,3}(?:(?:[-._]?[a-zA-Z0-9]+)+)?\b`
  `\s*[vV]?\d+(?:\.\d+){1,2}\b`
  `\s+\d+(?:\.\d+)*\b`

as engine matchers; each pattern necessarily ends in a word character, so
its trailing `\b` holds exactly when the next character is not one. -/

/-- `[vV]`. -/
def vMarkM : Matcher := chCls (fun c => c = 'v' || c = 'V')

/-- `\s`. -/
def spaceM : Matcher := chCls isSpaceChar

/-- First cleaning pattern, without its trailing `\b`. -/
def cleanPat1 (n : Nat) : Matcher :=
  seqM (starM n spaceM)
    (seqM (optM vMarkM)
      (seqM (rep1M n digitM)
        (seqM
          (seqM (dotDigits n)
            (optM (seqM (dotDigits n) (optM (dotDigits n)))))
          (optM (rep1M n (unitP1 n))))))

/-- Second cleaning pattern, without its trailing `\b`. -/
def cleanPat2 (n : Nat) : Matcher :=
  seqM (starM n spaceM)
    (seqM (optM vMarkM)
      (seqM (rep1M n digitM)
        (seqM (dotDigits n) (optM (dotDigits n)))))

/-- Third cleaning pattern, without its trailing `\b`. -/
def cleanPat3 (n : Nat) : Matcher :=
  seqM (rep1M n spaceM) (seqM (rep1M n digitM) (starM n (dotDigits n)))

/-- One match of a cleaning pattern at the scan position: first engine
alternative whose remainder starts with a non-word character (the `\b`). -/
def cleanMatchAt (pat : Nat → Matcher) (_prev : Option Char)
    (cs : List Char) : Option (List Char × List Char) :=
  match (pat (fuelOf cs) cs).find? (fun rest => !(optWord rest.head?)) with
  | some r => some (cs.take (cs.length - r.length), r)
  | none => none

/-- `re.sub(pattern, '', ·)` for a cleaning pattern. -/
def subCleanPat (pat : Nat → Matcher) (cs : List Char) : List Char :=
  scanSub [] (cleanMatchAt pat) cs.length none cs

/-- One pass of the version-pattern loop body in `aggressively_clean_name`:
substitute, strip `-_ `, collapse whitespace, strip `-_ ` again. -/
def cleanStep (cl : List Char) (pat : Nat → Matcher) : List Char :=
  stripSeps (collapseRuns isSpaceChar ' ' (stripSeps (subCleanPat pat cl)))

/-- `COMMON_VARIANT_KEYWORDS_TO_DETECT_AND_CLEAN`
(app_updater.py lines 40–73). -/
def COMMON_VARIANT_KEYWORDS_TO_DETECT_AND_CLEAN : List String :=
  ["Mod-Extra", "مود اکسترا", "موداکسترا",
   "Mod-Lite", "مود لایت", "مودلایت",
   "Ad-Free", "بدون تبلیغات",
   "Unlocked", "آنلاک شده", "آنلاک",
   "Patched", "پچ شده",
   "Premium", "پرمیوم",
   "Persian", "فارسی",
   "English", "انگلیسی",
   "Universal", "یونیورسال",
   "Original", "اورجینال", "اصلی", "معمولی",
   "Arm64-v8a", "Armeabi-v7a", "x86_64",
   "Arm64", "Armv7", "Arm", "x86",
   "Windows", "ویندوز", "PC", "کامپیوتر",
   "macOS", "Mac", "OSX",
   "Linux", "لینوکس",
   "Ultra", "اولترا",
   "Clone", "کلون",
   "Beta", "بتا",
   "Full", "کامل",
   "Lite", "لایت",
   "Main",
   "Data", "دیتا", "Obb",
   "Mod", "مود",
   "Pro", "پرو",
   "VIP", "وی آی پی",
   "Plus", "پلاس",
   "Image", "تصویر",
   "Audio", "صوتی",
   "Video", "ویدیو",
   "Document", "سند", "Text", "متن",
   "Archive", "آرشیو",
   "Font", "فونت"]

/-- Stable insertion (longer first, originally-earlier first on ties). -/
def insertLenDesc (x : String) : List String → List String
  | [] => [x]
  | y :: ys =>
    if y.length ≤ x.length then x :: y :: ys else y :: insertLenDesc x ys

/-- Python `sorted(keywords, key=len, reverse=True)` (stable). -/
def sortByLenDesc : List String → List String
  | [] => []
  | x :: xs => insertLenDesc x (sortByLenDesc xs)

/-- The per-keyword `while re.search: re.sub …` loop body of
`aggressively_clean_name`; each iteration deletes at least one character,
so fuel `length + 1` is never exhausted. -/
def kwStripLoop : Nat → List Char → List Char → List Char
  | 0, _, cl => cl
  | n + 1, kw, cl =>
    if wwSearch kw cl then
      kwStripLoop n kw
        (stripSeps (collapseRuns isSpaceChar ' ' (stripSeps (kwSubAll kw cl))))
    else cl

/-- `aggressively_clean_name` (app_updater.py lines 133–152); the version
pattern list argument of the Python function is always the global
`VERSION_PATTERNS_FOR_CLEANING`, inlined here. -/
def aggressively_clean_name (name_to_clean : String)
    (keywords_list : List String) : String :=
  let cl := name_to_clean.data
  let cl := cleanStep cl cleanPat1
  let cl := cleanStep cl cleanPat2
  let cl := cleanStep cl cleanPat3
  let sorted_keywords := sortByLenDesc keywords_list
  let cl := sorted_keywords.foldl
    (fun acc kw => kwStripLoop (acc.length + 1) kw.data acc) cl
  let cl := stripWs (cutAtMatch farsParenAt cl)
  let cl := stripWs (cutAtMatch farsSuffixAt cl)
  let cl := stripAny (fun c => c = ' ' || c = '-' || c = '–' || c = '—') cl
  ⟨stripWs (collapseRuns isSpaceChar ' ' cl)⟩

/-! ## §4.3 Variant Classifier -/

/-- `با لینک مستقیم`. -/
def boilerLit1 : List Char := "با لینک مستقیم".data

/-- `مگابایت`. -/
def boilerLit2 : List Char := "مگابایت".data

/-- One match of `\b(?:با لینک مستقیم|مگابایت|\d+)\b` at the scan
position: the alternation's branches all start and end with word
characters, so its surrounding `\b`s reduce to the neighbours not being
word characters; for `\d+`, shorter-than-maximal digit runs always fail
the trailing `\b`, so only the maximal run can match. -/
def boilerMatchAt (prev : Option Char) (cs : List Char) :
    Option (List Char × List Char) :=
  if xorB prev cs.head? then
    if boilerLit1.isPrefixOf cs &&
        !(optWord (cs.drop boilerLit1.length).head?) then
      some (boilerLit1, cs.drop boilerLit1.length)
    else if boilerLit2.isPrefixOf cs &&
        !(optWord (cs.drop boilerLit2.length).head?) then
      some (boilerLit2, cs.drop boilerLit2.length)
    else
      let run := cs.takeWhile Char.isDigit
      if !run.isEmpty && !(optWord (cs.dropWhile Char.isDigit).head?) then
        some (run, cs.dropWhile Char.isDigit)
      else none
  else none

/-- `combined_text_for_variant_detection` (app_updater.py lines 357–358):
lower-cased filename and link text joined by a space; literal boilerplate
removed; stripped; then the `\b(?:با لینک مستقیم|مگابایت|\d+)\b`
substitution; stripped again. -/
def combinedTextOf (link_text filename_decoded : String) : List Char :=
  let c0 := (filename_decoded.data.map Char.toLower) ++
    ' ' :: (link_text.data.map Char.toLower)
  let c1 := replaceAll "(farsroid.com)".data [] c0
  let c2 := replaceAll "دانلود فایل نصبی".data [] c1
  let c3 := replaceAll "برنامه با لینک مستقیم".data [] c2
  let c4 := stripWs c3
  stripWs (scanSub [] boilerMatchAt c4.length none c4)

/-- `variant_keywords_ordered` (app_updater.py lines 361–373), in Python
dict insertion order. -/
def variant_keywords_ordered : List (String × List String) :=
  [("Mod-Extra", ["mod-extra", "مود اکسترا"]),
   ("Mod-Lite", ["mod-lite", "مود لایت"]),
   ("Ad-Free", ["ad-free", "بدون تبلیغات"]),
   ("Unlocked", ["unlocked", "آنلاک"]),
   ("Patched", ["patched", "پچ شده"]),
   ("Premium", ["premium", "پرمیوم"]),
   ("Ultra", ["ultra", "اولترا"]),
   ("Clone", ["clone", "کلون"]),
   ("Beta", ["beta", "بتا"]),
   ("Full", ["full", "کامل"]),
   ("Lite", ["lite", "لایت"]),
   ("Main", ["main"]),
   ("Pro", ["pro", "پرو"]),
   ("VIP", ["vip"]),
   ("Plus", ["plus", "پلاس"]),
   ("Persian", ["persian", "فارسی"]),
   ("English", ["english", "انگلیسی"]),
   ("Arm64-v8a", ["arm64-v8a", "arm64"]),
   ("Armeabi-v7a", ["armeabi-v7a", "armv7"]),
   ("x86_64", ["x86_64"]),
   ("x86", ["x86"]),
   ("Arm", ["arm"]),
   ("Mod", ["mod", "مود"]),
   ("PC", ["pc", "کامپیوتر"]),
   ("Windows", ["windows", "ویندوز"]),
   ("Data", ["data", "obb", "دیتا"])]

/-- One taxonomy entry of the scan loop (app_updater.py lines 376–384):
if any synonym whole-word-matches, apply the suppression rules and append
the tag unless already present. -/
def stepKey (combined : List Char) (parts : List String) (key : String)
    (pats : List String) : List String :=
  if pats.any (fun p => wwSearch p.data combined) then
    if key = "Mod" &&
        (parts.contains "Mod-Extra" || parts.contains "Mod-Lite") then parts
    else if key = "Lite" && parts.contains "Mod-Lite" then parts
    else if key = "Pro" &&
        (parts.contains "Premium" || parts.contains "VIP" ||
          parts.contains "Full" || parts.contains "Unlocked" ||
          parts.contains "Plus") then parts
    else if key = "Full" &&
        (parts.contains "Mod" || parts.contains "Premium" ||
          parts.contains "VIP" || parts.contains "Unlocked" ||
          parts.contains "Plus" || parts.contains "Pro") then parts
    else if parts.contains key then parts
    else parts ++ [key]
  else parts

/-- `link_variant_parts` after the keyword scan. -/
def detect_variants (combined : List Char) : List String :=
  variant_keywords_ordered.foldl
    (fun parts kv => stepKey combined parts kv.1 kv.2) []

/-- Stable insertion by Python string `<`. -/
def insertStr (x : String) : List String → List String
  | [] => [x]
  | y :: ys => if pyLt x.data y.data then x :: y :: ys else y :: insertStr x ys

/-- Python `sorted` on strings. -/
def sortStr : List String → List String
  | [] => []
  | x :: xs => insertStr x (sortStr xs)

/-- `set(p for p in parts if p)` as a deterministic list: nonempty entries,
first occurrences kept. -/
def dedupNonemptyGo (seen : List String) : List String → List String
  | [] => []
  | p :: ps =>
    if p ≠ "" && !(seen.contains p) then p :: dedupNonemptyGo (p :: seen) ps
    else dedupNonemptyGo seen ps

/-- Nonempty entries, duplicates removed. -/
def dedupNonempty (parts : List String) : List String :=
  dedupNonemptyGo [] parts

/-- `unique_link_variant_parts` (app_updater.py line 405):
`sorted(list(set(p for p in link_variant_parts if p)))`. -/
def classifyTags (combined : List Char) : List String :=
  sortStr (dedupNonempty (detect_variants combined))

/-! ## C5: Mod-Extra suppression -/

theorem stepKey_cases (c : List Char) (parts : List String) (k : String)
    (pats : List String) :
    stepKey c parts k pats = parts ∨ stepKey c parts k pats = parts ++ [k] := by
  unfold stepKey
  split_ifs <;> simp

theorem stepKey_mod_suppressed (c : List Char) (parts : List String)
    (pats : List String)
    (h : "Mod-Extra" ∈ parts ∨ "Mod-Lite" ∈ parts) :
    stepKey c parts "Mod" pats = parts := by
  unfold stepKey
  have hc : (decide (("Mod" : String) = "Mod") &&
      (parts.contains "Mod-Extra" || parts.contains "Mod-Lite")) = true := by
    rcases h with h | h <;> simp [h]
  by_cases ha : (pats.any fun p => wwSearch p.data c) = true
  · rw [if_pos ha, if_pos hc]
  · rw [if_neg ha]

theorem stepKey_invariant (c : List Char) (parts : List String) (k : String)
    (pats : List String)
    (h1 : "Mod-Extra" ∈ parts) (h2 : "Mod" ∉ parts) :
    "Mod-Extra" ∈ stepKey c parts k pats ∧ "Mod" ∉ stepKey c parts k pats := by
  by_cases hk : k = "Mod"
  · subst hk
    rw [stepKey_mod_suppressed c parts pats (Or.inl h1)]
    exact ⟨h1, h2⟩
  · rcases stepKey_cases c parts k pats with he | he <;> rw [he]
    · exact ⟨h1, h2⟩
    · refine ⟨List.mem_append_left _ h1, ?_⟩
      intro hmem
      rcases List.mem_append.mp hmem with hh | hh
      · exact h2 hh
      · simp at hh
        exact hk hh.symm

theorem foldl_stepKey_invariant (c : List Char) :
    ∀ (l : List (String × List String)) (parts : List String),
      "Mod-Extra" ∈ parts → "Mod" ∉ parts →
      "Mod-Extra" ∈ l.foldl (fun ps kv => stepKey c ps kv.1 kv.2) parts ∧
      "Mod" ∉ l.foldl (fun ps kv => stepKey c ps kv.1 kv.2) parts := by
  intro l
  induction l with
  | nil => intro parts h1 h2; exact ⟨h1, h2⟩
  | cons kv rest ih =>
    intro parts h1 h2
    obtain ⟨h1', h2'⟩ := stepKey_invariant c parts kv.1 kv.2 h1 h2
    exact ih (stepKey c parts kv.1 kv.2) h1' h2'

theorem mem_insertStr (x y : String) (l : List String) :
    x ∈ insertStr y l ↔ x = y ∨ x ∈ l := by
  induction l with
  | nil => simp [insertStr]
  | cons z zs ih =>
    unfold insertStr
    split
    · simp
    · simp only [List.mem_cons, ih]
      tauto

theorem mem_sortStr (x : String) (l : List String) :
    x ∈ sortStr l ↔ x ∈ l := by
  induction l with
  | nil => simp [sortStr]
  | cons y ys ih =>
    unfold sortStr
    rw [mem_insertStr, ih]
    simp

theorem mem_of_mem_dedupNonemptyGo (x : String) :
    ∀ (l seen : List String), x ∈ dedupNonemptyGo seen l → x ∈ l := by
  intro l
  induction l with
  | nil => intro seen h; simp [dedupNonemptyGo] at h
  | cons p ps ih =>
    intro seen h
    unfold dedupNonemptyGo at h
    split at h
    · rcases List.mem_cons.mp h with h | h
      · exact List.mem_cons.mpr (Or.inl h)
      · exact List.mem_cons.mpr (Or.inr (ih (p :: seen) h))
    · exact List.mem_cons.mpr (Or.inr (ih seen h))

theorem mem_dedupNonemptyGo_of_mem (x : String) (hx : x ≠ "") :
    ∀ (l seen : List String), x ∈ l →
      x ∈ dedupNonemptyGo seen l ∨ x ∈ seen := by
  intro l
  induction l with
  | nil => intro seen h; simp at h
  | cons p ps ih =>
    intro seen h
    unfold dedupNonemptyGo
    by_cases hp : p = x
    · subst hp
      by_cases hs : p ∈ seen
      · exact Or.inr hs
      · have hcond : (p ≠ "" && !(seen.contains p)) = true := by
          simp [hx]
          exact hs
        rw [if_pos hcond]
        exact Or.inl (List.mem_cons_self _ _)
    · have hxps : x ∈ ps := by
        rcases List.mem_cons.mp h with h | h
        · exact absurd h.symm hp
        · exact h
      split
      · rcases ih (p :: seen) hxps with h' | h'
        · exact Or.inl (List.mem_cons_of_mem _ h')
        · rcases List.mem_cons.mp h' with h'' | h''
          · exact absurd h''.symm hp
          · exact Or.inr h''
      · exact ih seen hxps

/-- C5 counterexample: the combined search text built from link text
`"Mod Extra Mod"` and filename `"app.apk"` contains the space-separated
phrase `"mod extra"` and the standalone word `"mod"`, yet classification
yields exactly the bare `["Mod"]`: the `Mod-Extra` synonym list contains
only the hyphenated form, so `"mod extra"` never matches it and nothing
suppresses `Mod`. -/
theorem C5_counterexample :
    combinedTextOf "Mod Extra Mod" "app.apk" = "app.apk mod extra mod".data ∧
    containsL "mod extra".data "app.apk mod extra mod".data = true ∧
    wwSearch "mod".data "app.apk mod extra mod".data = true ∧
    classifyTags "app.apk mod extra mod".data = ["Mod"] := by
  refine ⟨by decide, by decide, by decide, by decide⟩

/-- C5 amended: on any combined search text in which the *hyphenated*
keyword `mod-extra` occurs as a whole word (which also makes the bare
word `mod` match inside it), the classification contains `"Mod-Extra"`
and the suppression rule keeps the bare `"Mod"` tag out. -/
theorem C5_mod_extra_suppresses_mod (combined : List Char)
    (h : wwSearch "mod-extra".data combined = true) :
    "Mod-Extra" ∈ classifyTags combined ∧ "Mod" ∉ classifyTags combined := by
  have hstep : stepKey combined [] "Mod-Extra" ["mod-extra", "مود اکسترا"] =
      ["Mod-Extra"] := by
    unfold stepKey
    rw [if_pos (by simp [h]), if_neg (by simp), if_neg (by simp),
      if_neg (by simp), if_neg (by simp), if_neg (by simp)]
    rfl
  have hfold : "Mod-Extra" ∈ detect_variants combined ∧
      "Mod" ∉ detect_variants combined := by
    unfold detect_variants variant_keywords_ordered
    rw [List.foldl_cons, hstep]
    exact foldl_stepKey_invariant combined _ ["Mod-Extra"]
      (List.mem_cons_self _ _) (by simp)
  constructor
  · show "Mod-Extra" ∈ sortStr (dedupNonemptyGo [] (detect_variants combined))
    rw [mem_sortStr]
    rcases mem_dedupNonemptyGo_of_mem "Mod-Extra" (by simp) _ [] hfold.1 with
      h' | h'
    · exact h'
    · simp at h'
  · intro hmem
    have hmem' : "Mod" ∈ sortStr (dedupNonemptyGo [] (detect_variants combined)) :=
      hmem
    rw [mem_sortStr] at hmem'
    exact hfold.2 (mem_of_mem_dedupNonemptyGo "Mod" _ [] hmem')

/-- Witness for C5 amended on the combined text `"app mod-extra build"`. -/
theorem C5_mod_extra_suppresses_mod_witness :
    "Mod-Extra" ∈ classifyTags "app mod-extra build".data ∧
    "Mod" ∉ classifyTags "app mod-extra build".data :=
  C5_mod_extra_suppresses_mod "app mod-extra build".data (by decide)

/-! ## §4.4 File-Type Resolver -/

/-- The `known_extensions` allow-list (app_updater.py lines 291–301). -/
def known_extensions : List String :=
  [".apk", ".zip", ".exe", ".rar", ".xapk", ".apks", ".7z", ".gz", ".bz2",
   ".xz", ".msi", ".dmg", ".pkg", ".deb", ".rpm", ".appimage",
   ".tgz", ".tbz2", ".txz",
   ".jpg", ".jpeg", ".png", ".gif", ".bmp", ".tiff", ".tif", ".webp", ".svg",
   ".ico", ".mp3", ".wav", ".ogg", ".aac", ".flac", ".m4a", ".wma",
   ".mp4", ".mkv", ".avi", ".mov", ".wmv", ".flv", ".webm", ".mpeg", ".mpg",
   ".txt", ".pdf", ".doc", ".docx", ".xls", ".xlsx", ".ppt", ".pptx",
   ".odt", ".ods", ".odp", ".rtf", ".csv", ".html", ".htm", ".xml", ".json",
   ".md", ".ttf", ".otf", ".woff", ".woff2", ".eot"]

/-- `get_file_extension_from_url` (app_updater.py lines 280–312): the
two-segment archive suffixes are checked on the lower-cased URL filename
before single-segment extension extraction; unknown extensions fall back to
keyword inference over the variant search text, then to the raw extension,
then to `".bin"`. -/
def get_file_extension_from_url
    (download_url combined_text_for_variant : String) : String :=
  let raw := basenameL (urlPath download_url.data)
  let rawLower := raw.map Char.toLower
  if endsWithL ".tar.gz".data rawLower then ".tar.gz"
  else if endsWithL ".tar.bz2".data rawLower then ".tar.bz2"
  else if endsWithL ".tar.xz".data rawLower then ".tar.xz"
  else
    let ext := extSplit raw
    let extLower : String := ⟨ext.map Char.toLower⟩
    let ct := combined_text_for_variant.data
    if !ext.isEmpty && known_extensions.contains extLower then extLower
    else if containsL "windows".data ct || containsL "pc".data ct then ".exe"
    else if containsL "macos".data ct || containsL "mac".data ct then ".dmg"
    else if containsL "linux".data ct then ".appimage"
    else if containsL "data".data ct || containsL "obb".data ct then ".zip"
    else if containsL "font".data ct then ".zip"
    else if !ext.isEmpty then extLower
    else ".bin"

/-- C9: whenever the URL's path filename ends case-insensitively in
`.tar.gz`, the resolver returns `".tar.gz"` (and in particular not
`".gz"`), whatever the accompanying search text. -/
theorem C9_tar_gz (url txt : String)
    (h : endsWithL ".tar.gz".data
      ((basenameL (urlPath url.data)).map Char.toLower) = true) :
    get_file_extension_from_url url txt = ".tar.gz" ∧
    get_file_extension_from_url url txt ≠ ".gz" := by
  have he : get_file_extension_from_url url txt = ".tar.gz" := by
    simp [get_file_extension_from_url, h]
  exact ⟨he, by rw [he]; decide⟩

/-- Witness for C9 at a concrete archive URL. -/
theorem C9_tar_gz_witness :
    get_file_extension_from_url
      "https://dl.farsroid.com/game/Data-1.2.TAR.gz?id=7" "linux build"
      = ".tar.gz" ∧
    get_file_extension_from_url
      "https://dl.farsroid.com/game/Data-1.2.TAR.gz?id=7" "linux build"
      ≠ ".gz" :=
  C9_tar_gz "https://dl.farsroid.com/game/Data-1.2.TAR.gz?id=7" "linux build"
    (by decide)


/-! ## §4.5 Identity & Filename Builder and the per-entry pipeline

The body of the `for i, li in enumerate(found_lis)` loop of
`scrape_farsroid_page` (app_updater.py lines 336–497), from the point where
the link text and absolute download URL of one entry are known, up to the
assembled record fields.  (Locating the download box and anchors in the
parse tree, and `urljoin`, belong to the external page-content provider.) -/

/-- `link_variant_parts` after the extension-driven additions
(app_updater.py lines 389–402). -/
def fullVariantParts (combined : List Char) (file_extension : String) :
    List String :=
  let parts := detect_variants combined
  let arch_found := ["Arm64-v8a", "Armeabi-v7a", "x86_64", "x86", "Arm"].any
    (fun a => parts.contains a)
  let parts :=
    if parts.isEmpty then
      if file_extension = ".exe" || file_extension = ".msi" then ["Windows"]
      else if file_extension = ".dmg" || file_extension = ".pkg" then ["macOS"]
      else if file_extension = ".deb" || file_extension = ".rpm" ||
          file_extension = ".appimage" then ["Linux"]
      else []
    else parts
  if file_extension = ".apk" && parts.isEmpty && !arch_found then
    if containsL "universal".data combined || containsL "اصلی".data combined ||
        containsL "original".data combined ||
        containsL "معمولی".data combined then ["Universal"]
    else if containsL "main".data combined then ["Main"]
    else []
  else parts

/-- `link_specific_variant_final` (app_updater.py lines 405–406). -/
def lsvfOf (parts : List String) : String :=
  ⟨joinWith '-' (sortStr (dedupNonempty parts))⟩

/-- `variant_for_display_and_tracking` (app_updater.py lines 412–416). -/
def variantForTracking (lsvf file_extension : String) : String :=
  if lsvf = "" then
    if file_extension = ".apk" then "Universal" else "Default"
  else lsvf

/-- The trailing placeholder strip on the tracking id for non-APK files
(app_updater.py lines 428–431): one `_default` (else one `_universal`)
suffix is removed, once. -/
def finalizeTrackingId (tid : List Char) (file_extension : String) :
    List Char :=
  if endsWithL "_default".data tid && file_extension ≠ ".apk" then
    tid.take (tid.length - 8)
  else if endsWithL "_universal".data tid && file_extension ≠ ".apk" then
    tid.take (tid.length - 10)
  else tid

/-- `tracking_id` (app_updater.py lines 424–431). -/
def tracking_id_of (base variant file_extension : String) : String :=
  let app_part := sanitize_text base false
  let var_part := sanitize_text variant false
  let tid := (app_part.data ++ '_' :: var_part.data).map Char.toLower
  let tid := replaceAll "--".data "-".data tid
  let tid := collapseRuns (fun c => c = '_') '_' tid
  let tid := stripAny (fun c => c = '_') tid
  ⟨finalizeTrackingId tid file_extension⟩

/-- Variant tokens admitted into the filename: sanitized dash-components
of the variant string that are not already (whole or as a shorter
substring) among the underscore tokens of the sanitized app name
(app_updater.py lines 445–457). -/
def filenameVariantParts (lsvf : String) (app_tokens : List (List Char)) :
    List String :=
  (splitOnChar '-' lsvf.data).filterMap (fun part =>
    let sp := sanitize_text ⟨part⟩ true
    if sp ≠ "" && !(app_tokens.contains sp.data) &&
        !(app_tokens.any (fun tok =>
          containsL sp.data tok && sp.data.length < tok.length)) then
      some sp
    else none)

/-- `final_filename_components` (app_updater.py lines 440–473): app name,
`v`-version, non-duplicated variant tokens, the APK `universal` filler,
then component-level deduplication. -/
def filenameComponents
    (page_app_name_full current_version lsvf file_extension : String) :
    List String :=
  let app_s := sanitize_text page_app_name_full true
  let version_for_file : List Char :=
    (sanitize_text current_version true).data.map
      (fun c => if c = '.' then '_' else c)
  let parts := [app_s]
  let parts :=
    if version_for_file ≠ [] then parts ++ [⟨'v' :: version_for_file⟩]
    else parts
  let app_tokens := splitOnChar '_' app_s.data
  let parts :=
    if lsvf ≠ "" then parts ++ filenameVariantParts lsvf app_tokens else parts
  let parts :=
    if file_extension = ".apk" && !(parts.contains "universal") &&
        (lsvf = "" || lsvf.data.map Char.toLower = "universal".data) then
      if !(["mod", "lite", "premium", "vip", "pro", "unlocked", "patched",
            "clone", "beta", "full", "plus", "ultra"].any
          (fun vp => parts.contains vp)) then
        parts ++ ["universal"]
      else parts
    else parts
  dedupNonempty parts

/-- `suggested_filename` (app_updater.py lines 475–478). -/
def suggested_filename_of
    (page_app_name_full current_version lsvf file_extension : String) :
    String :=
  let finals :=
    filenameComponents page_app_name_full current_version lsvf file_extension
  let fname := joinWith '_' finals ++ file_extension.data
  let fname := collapseRuns (fun c => c = '_') '_' fname
  let fname := stripAny (fun c => c = '_') fname
  ⟨stripAny (fun c => c = '_') fname⟩

/-- The fields of one processed download entry. -/
structure EntryResult where
  current_version : String
  variant : String
  file_extension : String
  tracking_id : String
  suggested_filename : String
deriving DecidableEq, Repr

/-- One download entry processed (app_updater.py lines 336–480): `none`
when no version can be extracted (the entry is skipped). -/
def processEntry (page_app_name_full link_text download_url : String) :
    Option EntryResult :=
  let base0 := aggressively_clean_name page_app_name_full
    COMMON_VARIANT_KEYWORDS_TO_DETECT_AND_CLEAN
  let base := if base0 = "" then "UnknownAppForTracking" else base0
  let filename_from_url_decoded : String :=
    ⟨unquoteL (basenameL (urlPath download_url.data))⟩
  match extract_version_from_text_or_url link_text filename_from_url_decoded with
  | none => none
  | some current_version =>
    let combined := combinedTextOf link_text filename_from_url_decoded
    let file_extension := get_file_extension_from_url download_url ⟨combined⟩
    let parts := fullVariantParts combined file_extension
    let lsvf := lsvfOf parts
    let variant := variantForTracking lsvf file_extension
    some
      { current_version := current_version
        variant := variant
        file_extension := file_extension
        tracking_id := tracking_id_of base variant file_extension
        suggested_filename :=
          suggested_filename_of page_app_name_full current_version lsvf
            file_extension }


/-! ## C8: duplicate filename components -/

/-- Entries produced by the deduplication never lie in `seen`. -/
theorem dedupNonemptyGo_not_mem_seen (x : String) :
    ∀ (l seen : List String), x ∈ dedupNonemptyGo seen l → x ∉ seen := by
  intro l
  induction l with
  | nil => intro seen h; simp [dedupNonemptyGo] at h
  | cons p ps ih =>
    intro seen h
    unfold dedupNonemptyGo at h
    split at h
    case isTrue hc =>
      rcases List.mem_cons.mp h with h1 | h1
      · subst h1
        intro hs
        simp at hc
        exact hc.2 hs
      · intro hs
        exact ih (p :: seen) h1 (List.mem_cons_of_mem _ hs)
    case isFalse => exact ih seen h

/-- The deduplicated component list has no repeated entries. -/
theorem dedupNonemptyGo_nodup :
    ∀ (l seen : List String), (dedupNonemptyGo seen l).Nodup := by
  intro l
  induction l with
  | nil => intro seen; simp [dedupNonemptyGo]
  | cons p ps ih =>
    intro seen
    unfold dedupNonemptyGo
    split
    · refine List.nodup_cons.mpr ⟨?_, ih (p :: seen)⟩
      intro hmem
      exact dedupNonemptyGo_not_mem_seen p ps (p :: seen) hmem
        (List.mem_cons_self _ _)
    · exact ih seen

/-- Two equal adjacent entries somewhere in a token list. -/
def hasAdjDup : List (List Char) → Bool
  | a :: b :: t => a == b || hasAdjDup (b :: t)
  | _ => false

set_option maxRecDepth 16384 in
/-- C8 counterexample: the perfectly ordinary entry (app `Telegram`,
version `1.2.2`, a plain APK) is emitted with suggested filename
`telegram_v1_2_2_universal.apk`, whose underscore-delimited tokens contain
the identical adjacent pair `2`, `2` coming from inside the version
component `v1_2_2`. -/
theorem C8_counterexample :
    (processEntry "Telegram" "دانلود Telegram 1.2.2"
        "https://dl.farsroid.com/Telegram-1.2.2.apk").map
      (fun r => r.suggested_filename) = some "telegram_v1_2_2_universal.apk" ∧
    hasAdjDup (splitOnChar '_' "telegram_v1_2_2_universal.apk".data) = true := by
  constructor <;> decide

/-- C8 amended: the builder deduplicates whole underscore-joined
*components* (app name, `v`-version, variant tokens, the `universal`
filler), so the component list of every suggested filename is
duplicate-free — in particular no component is repeated adjacently.
Identical adjacent *tokens* can still appear inside a single component,
as in the counterexample's `v1_2_2`. -/
theorem C8_components_nodup
    (page_app_name_full current_version lsvf file_extension : String) :
    (filenameComponents page_app_name_full current_version lsvf
      file_extension).Nodup := by
  unfold filenameComponents dedupNonempty
  exact dedupNonemptyGo_nodup _ _

/-! ## C10: placeholder suffixes of the tracking key -/

set_option maxRecDepth 16384 in
/-- C10 counterexample: a page named `Shield Default` offering a `.zip`
download produces the raw key `shield_default_default`; the single
`_default` strip leaves `shield_default`, which still ends in the
`_default` segment although the extension is not `.apk`. -/
theorem C10_counterexample :
    (processEntry "Shield Default" "دانلود Shield Default 2.0"
        "https://dl.farsroid.com/shield-default-2.0.zip").map
      (fun r => (r.tracking_id, r.file_extension)) =
      some ("shield_default", ".zip") ∧
    endsWithL "_default".data "shield_default".data = true := by
  constructor <;> decide

/-- C10 amended: for a non-`.apk` entry the final strip removes one
trailing `_default` (else one `_universal`) segment, exactly once; the
result is free of both trailing placeholders provided the remainder after
that single strip does not itself end in one (the counterexample's app
name ends in `default`, so its remainder does). -/
theorem C10_single_strip (tid : List Char) (file_extension : String)
    (hne : file_extension ≠ ".apk")
    (hd : endsWithL "_default".data tid = true →
      endsWithL "_default".data (tid.take (tid.length - 8)) = false ∧
      endsWithL "_universal".data (tid.take (tid.length - 8)) = false)
    (hu : endsWithL "_default".data tid = false →
      endsWithL "_universal".data tid = true →
      endsWithL "_default".data (tid.take (tid.length - 10)) = false ∧
      endsWithL "_universal".data (tid.take (tid.length - 10)) = false) :
    endsWithL "_default".data (finalizeTrackingId tid file_extension) = false ∧
    endsWithL "_universal".data (finalizeTrackingId tid file_extension)
      = false := by
  unfold finalizeTrackingId
  by_cases h1 : endsWithL "_default".data tid = true
  · rw [if_pos (by simp [h1, hne])]
    exact hd h1
  · rw [if_neg (by simp [h1])]
    by_cases h2 : endsWithL "_universal".data tid = true
    · rw [if_pos (by simp [h2, hne])]
      exact hu (by simpa using h1) h2
    · rw [if_neg (by simp [h2])]
      exact ⟨by simpa using h1, by simpa using h2⟩

/-- Witness for C10 amended: `myapp_default` with extension `.zip` strips
to `myapp`, which ends in neither placeholder. -/
theorem C10_single_strip_witness :
    endsWithL "_default".data
      (finalizeTrackingId "myapp_default".data ".zip") = false ∧
    endsWithL "_universal".data
      (finalizeTrackingId "myapp_default".data ".zip") = false :=
  C10_single_strip "myapp_default".data ".zip" (by decide) (by decide)
    (by decide)

/-! ## C7: history lifecycle (app_updater.py lines 482–496 and 538–547) -/

/-- The acceptance loop of `scrape_farsroid_page`: each entry's version is
compared against `tracker_data.get(tracking_id, "0.0.0")`; the in-memory
map is never modified during the run.  Entries are (tracking id, version)
pairs in document order. -/
def accept_loop {α : Type} (vlt : α → α → Bool)
    (parse : String → Option α) (tracker : String → Option String)
    (entries : List (String × String)) : List (String × String) :=
  entries.filter
    (fun e => compare_versions vlt parse e.2 ((tracker e.1).getD "0.0.0"))

/-- Modelled from the spec: the claim's "updated in-memory as each record
is accepted" discipline, which would thread every accepted version into
the map before judging the next entry.  (Not what the code does.) -/
def accept_loop_updating {α : Type} (vlt : α → α → Bool)
    (parse : String → Option α) (entries : List (String × String))
    (tracker : String → Option String) : List (String × String) :=
  match entries with
  | [] => []
  | e :: es =>
    if compare_versions vlt parse e.2 ((tracker e.1).getD "0.0.0") then
      e :: accept_loop_updating vlt parse es
        (fun k => if k = e.1 then some e.2 else tracker k)
    else accept_loop_updating vlt parse es tracker

/-- `new_tracker_data_for_save` (app_updater.py lines 538–540): the loaded
map overwritten, in order, with each accepted record's version. -/
def mergeTracker (tracker : String → Option String)
    (records : List (String × String)) : String → Option String :=
  records.foldl (fun m e => fun k => if k = e.1 then some e.2 else m k)
    tracker

/-- The version of the last record carrying a given key, if any. -/
def lastVersionFor (records : List (String × String)) (k : String) :
    Option String :=
  ((records.filter (fun e => e.1 = k)).getLast?).map (fun e => e.2)

/-- C7 counterexample: with an empty loaded history and two entries under
the same key (versions `2.0` then `1.5`), the code accepts *both* —
each is compared against the loaded map's `0.0.0` — whereas the claimed
in-memory updating discipline would reject the second against `2.0`. -/
theorem C7_counterexample :
    accept_loop relLt numParse (fun _ => none)
      [("sample_app_universal", "2.0"), ("sample_app_universal", "1.5")] =
      [("sample_app_universal", "2.0"), ("sample_app_universal", "1.5")] ∧
    accept_loop_updating relLt numParse
      [("sample_app_universal", "2.0"), ("sample_app_universal", "1.5")]
      (fun _ => none) =
      [("sample_app_universal", "2.0")] := by
  constructor <;> decide

/-- Overwrite-fold characterization: a key maps to the version of the last
record that carries it, and otherwise keeps its loaded value. -/
theorem mergeTracker_last_wins (records : List (String × String)) :
    ∀ (tracker : String → Option String) (k : String),
      mergeTracker tracker records k =
        match lastVersionFor records k with
        | some v => some v
        | none => tracker k := by
  induction records with
  | nil => intro tracker k; rfl
  | cons e es ih =>
    intro tracker k
    have hstep : mergeTracker tracker (e :: es) k =
        mergeTracker (fun k2 => if k2 = e.1 then some e.2 else tracker k2)
          es k := rfl
    rw [hstep, ih]
    simp only [lastVersionFor]
    by_cases hk : e.1 = k
    · rw [List.filter_cons_of_pos (by simp [hk])]
      cases hF : es.filter (fun e2 => e2.1 = k) with
      | nil =>
        show (if k = e.1 then some e.2 else tracker k) = some e.2
        rw [if_pos hk.symm]
      | cons y ys =>
        rw [List.getLast?_cons_cons]
        cases hL : (y :: ys).getLast? with
        | none =>
          exact absurd (List.getLast?_eq_none_iff.mp hL) (by simp)
        | some x => rfl
    · rw [List.filter_cons_of_neg (by simp [hk])]
      cases hL : (es.filter (fun e2 => e2.1 = k)).getLast? with
      | none =>
        show (if k = e.1 then some e.2 else tracker k) = tracker k
        rw [if_neg (fun hcon => hk hcon.symm)]
      | some x => rfl

/-- C7 amended: acceptance is judged against the *loaded* map only (the
in-memory map is not updated during the run), and the persisted map is the
loaded map merged with the accepted records: a key carried by accepted
records ends at the version of the last such record, and all other keys
keep their loaded value. -/
theorem C7_persisted_merge {α : Type} (vlt : α → α → Bool)
    (parse : String → Option α) (tracker : String → Option String)
    (entries : List (String × String)) (k : String) :
    mergeTracker tracker (accept_loop vlt parse tracker entries) k =
      match lastVersionFor (accept_loop vlt parse tracker entries) k with
      | some v => some v
      | none => tracker k :=
  mergeTracker_last_wins (accept_loop vlt parse tracker entries) tracker k


/-! ## C3 machinery: canonical-fuel scanning

Facts needed to reason about the substitution scanners symbolically: fuel
irrelevance once the fuel covers the input length, a one-step unfolding
law, and the fact that each matcher used consumes a nonempty prefix. -/

/-- A matcher for `scanSub` that, on success, splits off a nonempty
consumed prefix. -/
def SplitsOff
    (matchAt : Option Char → List Char → Option (List Char × List Char)) :
    Prop :=
  ∀ prev cs con rest, matchAt prev cs = some (con, rest) →
    cs = con ++ rest ∧ con ≠ []

/-- `scanSub` at its canonical fuel. -/
def scanSubC (rep : List Char)
    (matchAt : Option Char → List Char → Option (List Char × List Char))
    (prev : Option Char) (cs : List Char) : List Char :=
  scanSub rep matchAt cs.length prev cs

theorem scanSub_congr {matchAt : Option Char → List Char →
      Option (List Char × List Char)}
    (hma : SplitsOff matchAt) (rep : List Char) :
    ∀ (L : Nat) (cs : List Char) (prev : Option Char) (n m : Nat),
      cs.length ≤ L → cs.length ≤ n → cs.length ≤ m →
      scanSub rep matchAt n prev cs = scanSub rep matchAt m prev cs := by
  intro L
  induction L with
  | zero =>
    intro cs prev n m hL _ _
    have hnil : cs = [] := List.eq_nil_of_length_eq_zero (Nat.le_zero.mp hL)
    subst hnil
    cases n <;> cases m <;> rfl
  | succ K ih =>
    intro cs prev n m hL hn hm2
    cases cs with
    | nil => cases n <;> cases m <;> rfl
    | cons c t =>
      simp only [List.length_cons] at hL hn hm2
      cases n with
      | zero => omega
      | succ n2 =>
        cases m with
        | zero => omega
        | succ m2 =>
          simp only [scanSub]
          cases hm : matchAt prev (c :: t) with
          | some x =>
            obtain ⟨con, rest⟩ := x
            obtain ⟨hsplit, hne⟩ := hma prev (c :: t) con rest hm
            have hlen : rest.length ≤ t.length := by
              have hcon : 1 ≤ con.length := by
                cases con with
                | nil => exact absurd rfl hne
                | cons a b => simp
              have := congrArg List.length hsplit
              simp [List.length_append] at this
              omega
            exact congrArg (rep ++ ·)
              (ih rest (lastO prev con) n2 m2 (by omega) (by omega) (by omega))
          | none =>
            exact congrArg (c :: ·)
              (ih t (some c) n2 m2 (by omega) (by omega) (by omega))

theorem scanSub_norm {matchAt : Option Char → List Char →
      Option (List Char × List Char)}
    (hma : SplitsOff matchAt) (rep : List Char) (n : Nat) (cs : List Char)
    (prev : Option Char) (h : cs.length ≤ n) :
    scanSub rep matchAt n prev cs = scanSubC rep matchAt prev cs :=
  scanSub_congr hma rep cs.length cs prev n cs.length le_rfl h le_rfl

theorem scanSubC_nil (rep : List Char)
    (matchAt : Option Char → List Char → Option (List Char × List Char))
    (prev : Option Char) : scanSubC rep matchAt prev [] = [] := rfl

theorem scanSubC_cons {matchAt : Option Char → List Char →
      Option (List Char × List Char)}
    (hma : SplitsOff matchAt) (rep : List Char) (prev : Option Char)
    (c : Char) (t : List Char) :
    scanSubC rep matchAt prev (c :: t) =
      match matchAt prev (c :: t) with
      | some (con, rest) => rep ++ scanSubC rep matchAt (lastO prev con) rest
      | none => c :: scanSubC rep matchAt (some c) t := by
  show scanSub rep matchAt (t.length + 1) prev (c :: t) = _
  simp only [scanSub]
  cases hm : matchAt prev (c :: t) with
  | some x =>
    obtain ⟨con, rest⟩ := x
    obtain ⟨hsplit, hne⟩ := hma prev (c :: t) con rest hm
    have hlen : rest.length ≤ t.length := by
      have hcon : 1 ≤ con.length := by
        cases con with
        | nil => exact absurd rfl hne
        | cons a b => simp
      have := congrArg List.length hsplit
      simp [List.length_append] at this
      omega
    exact congrArg (rep ++ ·) (scanSub_norm hma rep t.length rest _ hlen)
  | none => rfl

/-- A prefix plus the drop of its length reassembles the list. -/
theorem append_drop_of_isPrefixOf {lit cs : List Char}
    (h : lit.isPrefixOf cs = true) : cs = lit ++ cs.drop lit.length := by
  obtain ⟨t, ht⟩ := List.isPrefixOf_iff_prefix.mp h
  conv_lhs => rw [← ht]
  rw [← ht, List.drop_left]

theorem splitsOff_lit (lit : List Char) : SplitsOff (litMatchAt lit) := by
  intro prev cs con rest h
  unfold litMatchAt at h
  by_cases hc : (lit.isPrefixOf cs && !lit.isEmpty) = true
  · rw [if_pos hc] at h
    have h1 : lit = con := congrArg (fun x => x.1) (Option.some.inj h)
    have h2 : cs.drop lit.length = rest :=
      congrArg (fun x => x.2) (Option.some.inj h)
    rw [Bool.and_eq_true] at hc
    obtain ⟨hp, hne⟩ := hc
    subst h1; subst h2
    refine ⟨append_drop_of_isPrefixOf hp, ?_⟩
    intro hcon
    rw [hcon] at hne
    simp at hne
  · rw [if_neg hc] at h
    exact absurd h (by simp)

theorem splitsOff_boiler : SplitsOff boilerMatchAt := by
  intro prev cs con rest h
  unfold boilerMatchAt at h
  split at h
  case isFalse => exact Option.noConfusion h
  case isTrue =>
    split at h
    case isTrue h1 =>
      have e1 : boilerLit1 = con := congrArg (fun x => x.1) (Option.some.inj h)
      have e2 : cs.drop boilerLit1.length = rest :=
        congrArg (fun x => x.2) (Option.some.inj h)
      rw [Bool.and_eq_true] at h1
      subst e1; subst e2
      exact ⟨append_drop_of_isPrefixOf h1.1, by decide⟩
    case isFalse h1 =>
      split at h
      case isTrue h2 =>
        have e1 : boilerLit2 = con :=
          congrArg (fun x => x.1) (Option.some.inj h)
        have e2 : cs.drop boilerLit2.length = rest :=
          congrArg (fun x => x.2) (Option.some.inj h)
        rw [Bool.and_eq_true] at h2
        subst e1; subst e2
        exact ⟨append_drop_of_isPrefixOf h2.1, by decide⟩
      case isFalse h2 =>
        dsimp only [] at h
        split at h
        case isTrue h3 =>
          have e1 : cs.takeWhile Char.isDigit = con :=
            congrArg (fun x => x.1) (Option.some.inj h)
          have e2 : cs.dropWhile Char.isDigit = rest :=
            congrArg (fun x => x.2) (Option.some.inj h)
          subst e1; subst e2
          refine ⟨(List.takeWhile_append_dropWhile Char.isDigit cs).symm, ?_⟩
          intro hcon
          rw [Bool.and_eq_true] at h3
          have := h3.1
          rw [hcon] at this
          simp at this
        case isFalse h3 => exact Option.noConfusion h

theorem splitsOff_kw (kw : List Char) : SplitsOff (kwMatchAt kw) := by
  intro prev cs con rest h
  unfold kwMatchAt at h
  by_cases hc : ((cs.take kw.length).map Char.toLower =
      kw.map Char.toLower && !kw.isEmpty && xorB prev cs.head? &&
      xorB (cs.take kw.length).getLast? (cs.drop kw.length).head?) = true
  · rw [if_pos hc] at h
    have e1 : cs.take kw.length = con :=
      congrArg (fun x => x.1) (Option.some.inj h)
    have e2 : cs.drop kw.length = rest :=
      congrArg (fun x => x.2) (Option.some.inj h)
    subst e1; subst e2
    refine ⟨(List.take_append_drop kw.length cs).symm, ?_⟩
    intro hcon
    simp only [Bool.and_eq_true] at hc
    have hmap := of_decide_eq_true hc.1.1.1
    have hlen := congrArg List.length hmap
    rw [hcon] at hlen
    simp at hlen
    have hk : kw = [] := List.eq_nil_of_length_eq_zero hlen.symm
    rw [hk] at hc
    simp at hc
  · rw [if_neg hc] at h
    exact absurd h (by simp)

/-- Matchers that always consume at least one character. -/
def StrictM (m : Matcher) : Prop := ∀ cs r, r ∈ m cs → r.length < cs.length

theorem strict_chCls (f : Char → Bool) : StrictM (chCls f) := by
  intro cs r hr
  cases cs with
  | nil => simp [chCls] at hr
  | cons c t =>
    simp only [chCls] at hr
    by_cases hf : f c = true
    · rw [if_pos hf] at hr
      have hrt : r = t := by simpa using hr
      rw [hrt]
      simp
    · rw [if_neg hf] at hr
      simp at hr

theorem strict_seq_left {a b : Matcher} (ha : StrictM a) (hb : Shrinking b) :
    StrictM (seqM a b) := by
  intro cs r hr
  obtain ⟨mid, hmid, hr2⟩ := List.mem_flatMap.mp hr
  have h1 := ha cs mid hmid
  have h2 := (hb mid r hr2).length_le
  omega

theorem strict_seq_right {a b : Matcher} (ha : Shrinking a) (hb : StrictM b) :
    StrictM (seqM a b) := by
  intro cs r hr
  obtain ⟨mid, hmid, hr2⟩ := List.mem_flatMap.mp hr
  have h1 := (ha cs mid hmid).length_le
  have h2 := hb mid r hr2
  omega

theorem strict_rep1 {a : Matcher} (ha : StrictM a) :
    ∀ n, StrictM (rep1M n a) := by
  intro n
  induction n with
  | zero => intro cs r hr; simp [rep1M] at hr
  | succ k ih =>
    intro cs r hr
    simp only [rep1M] at hr
    obtain ⟨mid, hmid, hr2⟩ := List.mem_flatMap.mp hr
    rcases List.mem_append.mp hr2 with h | h
    · have := ih mid r h
      have := ha cs mid hmid
      omega
    · simp at h
      subst h
      exact ha cs r hmid

theorem shrinking_unitP1 (n : Nat) : Shrinking (unitP1 n) :=
  shrinking_seqM (shrinking_optM (shrinking_chCls _))
    (shrinking_rep1M (shrinking_chCls _) n)

theorem shrinking_cleanTail1 (n : Nat) :
    Shrinking (seqM
      (seqM (dotDigits n) (optM (seqM (dotDigits n) (optM (dotDigits n)))))
      (optM (rep1M n (unitP1 n)))) :=
  shrinking_seqM
    (shrinking_seqM (shrinking_dotDigits n)
      (shrinking_optM (shrinking_seqM (shrinking_dotDigits n)
        (shrinking_optM (shrinking_dotDigits n)))))
    (shrinking_optM (shrinking_rep1M (shrinking_unitP1 n) n))

theorem strict_cleanPat1 (n : Nat) : StrictM (cleanPat1 n) :=
  strict_seq_right (shrinking_starM (shrinking_chCls _) n)
    (strict_seq_right (shrinking_optM (shrinking_chCls _))
      (strict_seq_left (strict_rep1 (strict_chCls _) n)
        (shrinking_cleanTail1 n)))

theorem strict_cleanPat2 (n : Nat) : StrictM (cleanPat2 n) :=
  strict_seq_right (shrinking_starM (shrinking_chCls _) n)
    (strict_seq_right (shrinking_optM (shrinking_chCls _))
      (strict_seq_left (strict_rep1 (strict_chCls _) n)
        (shrinking_seqM (shrinking_dotDigits n)
          (shrinking_optM (shrinking_dotDigits n)))))

theorem strict_cleanPat3 (n : Nat) : StrictM (cleanPat3 n) :=
  strict_seq_right (shrinking_rep1M (shrinking_chCls _) n)
    (strict_seq_left (strict_rep1 (strict_chCls _) n)
      (shrinking_starM (shrinking_dotDigits n) n))

theorem splitsOff_clean {pat : Nat → Matcher}
    (hshr : ∀ n, Shrinking (pat n)) (hstr : ∀ n, StrictM (pat n)) :
    SplitsOff (cleanMatchAt pat) := by
  intro prev cs con rest h
  cases hf : (pat (fuelOf cs) cs).find? (fun r => !(optWord r.head?)) with
  | none =>
    rw [cleanMatchAt, hf] at h
    exact Option.noConfusion h
  | some r =>
    rw [cleanMatchAt, hf] at h
    have e1 : cs.take (cs.length - r.length) = con :=
      congrArg (fun x => x.1) (Option.some.inj h)
    have e2 : r = rest := congrArg (fun x => x.2) (Option.some.inj h)
    obtain ⟨p, hp⟩ := hshr (fuelOf cs) cs r (List.mem_of_find?_eq_some hf)
    have hl := hstr (fuelOf cs) cs r (List.mem_of_find?_eq_some hf)
    have htake := take_of_append p r cs hp
    have hpcon : p = con := htake.symm.trans e1
    constructor
    · rw [hpcon, e2] at hp
      exact hp.symm
    · intro hcon
      rw [hpcon, hcon] at hp
      simp at hp
      rw [hp] at hl
      exact Nat.lt_irrefl _ hl

/-! ## C3: version invariance of the tracking key

Scaffolding: purely numeric dot-separated versions as lists of digit
segments, and a representative Farsroid page family in which one such
version appears in the page title, the link text and the URL filename. -/

/-- Dot-join of version segments. -/
def joinDots : List (List Char) → List Char
  | [] => []
  | [s] => s
  | s :: t :: rest => s ++ '.' :: joinDots (t :: rest)

/-- The `'.' :: segment` groups forming the tail of a dot-joined version. -/
def dotGroups (gs : List (List Char)) : List Char :=
  gs.flatMap (fun s => '.' :: s)

/-- A well-formed version segment: nonempty, all ASCII digits. -/
def SegOK (s : List Char) : Prop := s ≠ [] ∧ ∀ c ∈ s, c.isDigit = true

/-- A well-formed purely numeric version: at least one segment. -/
def SegsOK (segs : List (List Char)) : Prop := segs ≠ [] ∧ ∀ s ∈ segs, SegOK s

/-- Page title of the template family. -/
def c3Title (v : List Char) : String := ⟨"Telegram ".data ++ v⟩

/-- Link text of the template family. -/
def c3Link (v : List Char) : String := ⟨"Download Telegram ".data ++ v⟩

/-- Download URL of the template family. -/
def c3Url (v : List Char) : String :=
  ⟨"/dl/Telegram-".data ++ (v ++ ".apk".data)⟩

theorem joinDots_cons (s : List Char) (gs : List (List Char)) :
    joinDots (s :: gs) = s ++ dotGroups gs := by
  induction gs generalizing s with
  | nil => simp [joinDots, dotGroups]
  | cons t rest ih =>
    show s ++ '.' :: joinDots (t :: rest) = s ++ dotGroups (t :: rest)
    rw [ih t]
    simp [dotGroups]

/-! ### Generic list lemmas -/

theorem takeWhile_append_all {p : Char → Bool} {xs : List Char}
    (ys : List Char) (h : ∀ x ∈ xs, p x = true) :
    (xs ++ ys).takeWhile p = xs ++ ys.takeWhile p := by
  induction xs with
  | nil => rfl
  | cons a l ih =>
    rw [List.cons_append, List.takeWhile_cons_of_pos (h a (by simp)),
      ih (fun x hx => h x (by simp [hx]))]
    rfl

theorem dropWhile_append_all {p : Char → Bool} {xs : List Char}
    (ys : List Char) (h : ∀ x ∈ xs, p x = true) :
    (xs ++ ys).dropWhile p = ys.dropWhile p := by
  induction xs with
  | nil => rfl
  | cons a l ih =>
    rw [List.cons_append, List.dropWhile_cons_of_pos (h a (by simp))]
    exact ih (fun x hx => h x (by simp [hx]))

theorem takeWhile_append_stop {p : Char → Bool} {xs : List Char}
    (ys : List Char) (h : (xs.takeWhile p).length < xs.length) :
    (xs ++ ys).takeWhile p = xs.takeWhile p := by
  induction xs with
  | nil => simp at h
  | cons a l ih =>
    by_cases ha : p a = true
    · rw [List.cons_append, List.takeWhile_cons_of_pos ha,
        List.takeWhile_cons_of_pos ha]
      rw [List.takeWhile_cons_of_pos ha] at h
      simp only [List.length_cons] at h
      rw [ih (by omega)]
    · rw [List.cons_append, List.takeWhile_cons_of_neg (by simp [ha]),
        List.takeWhile_cons_of_neg (by simp [ha])]

theorem dropWhile_append_stop {p : Char → Bool} {xs : List Char}
    (ys : List Char) (h : (xs.takeWhile p).length < xs.length) :
    (xs ++ ys).dropWhile p = xs.dropWhile p ++ ys := by
  induction xs with
  | nil => simp at h
  | cons a l ih =>
    by_cases ha : p a = true
    · rw [List.cons_append, List.dropWhile_cons_of_pos ha,
        List.dropWhile_cons_of_pos ha]
      rw [List.takeWhile_cons_of_pos ha] at h
      simp only [List.length_cons] at h
      exact ih (by omega)
    · rw [List.cons_append, List.dropWhile_cons_of_neg (by simp [ha]),
        List.dropWhile_cons_of_neg (by simp [ha])]
      rfl

theorem map_eq_self_of {f : Char → Char} {xs : List Char}
    (h : ∀ x ∈ xs, f x = x) : xs.map f = xs := by
  induction xs with
  | nil => rfl
  | cons a l ih =>
    rw [List.map_cons, h a (by simp), ih (fun x hx => h x (by simp [hx]))]

theorem dropWhile_eq_self_of_head {p : Char → Bool} {xs : List Char}
    (h : ∀ c ∈ xs.head?, p c = false) : xs.dropWhile p = xs := by
  cases xs with
  | nil => rfl
  | cons a l => exact List.dropWhile_cons_of_neg (by simp [h a (by simp)])

/-! ### Facts about digit characters -/

theorem isDigit_toNat {c : Char} (h : c.isDigit = true) :
    48 ≤ c.toNat ∧ c.toNat ≤ 57 := by
  simp [Char.isDigit, Char.le_def] at h
  exact h

theorem toLower_digit {c : Char} (h : c.isDigit = true) :
    Char.toLower c = c := by
  have h2 := isDigit_toNat h
  unfold Char.toLower
  rw [if_neg]
  omega

theorem ne_of_isDigit {c d : Char} (h : c.isDigit = true)
    (hd : d.isDigit = false) : c ≠ d := by
  intro e
  rw [e, hd] at h
  exact Bool.noConfusion h

theorem isWordChar_digit {c : Char} (h : c.isDigit = true) :
    isWordChar c = true := by
  simp [isWordChar, Char.isAlphanum, h]

theorem isSpaceChar_digit {c : Char} (h : c.isDigit = true) :
    isSpaceChar c = false := by
  obtain ⟨h1, h2⟩ := isDigit_toNat h
  unfold isSpaceChar
  have e1 : c ≠ ' ' := by intro e; rw [e] at h1; simp at h1
  have e2 : c ≠ '\t' := by intro e; rw [e] at h1; simp at h1
  have e3 : c ≠ '\n' := by intro e; rw [e] at h1; simp at h1
  have e4 : c ≠ '\r' := by intro e; rw [e] at h1; simp at h1
  simp [e1, e2, e3, e4]
  omega

/-- Characters of the dot-group tail are digits or dots. -/
theorem dotGroups_chars {gs : List (List Char)} (h : ∀ s ∈ gs, SegOK s) :
    ∀ c ∈ dotGroups gs, c.isDigit = true ∨ c = '.' := by
  induction gs with
  | nil => intro c hc; simp [dotGroups] at hc
  | cons t rest ih =>
    intro c hc
    simp only [dotGroups, List.flatMap_cons] at hc
    rcases List.mem_append.mp hc with hm | hm
    · rcases List.mem_cons.mp hm with h3 | h3
      · exact Or.inr h3
      · exact Or.inl ((h t (by simp)).2 c h3)
    · exact ih (fun x hx => h x (by simp [hx])) c hm

/-- Characters of a well-formed version are digits or dots. -/
theorem joinDots_chars {segs : List (List Char)} (h : ∀ s ∈ segs, SegOK s) :
    ∀ c ∈ joinDots segs, c.isDigit = true ∨ c = '.' := by
  cases segs with
  | nil => intro c hc; simp [joinDots] at hc
  | cons s gs =>
    intro c hc
    rw [joinDots_cons] at hc
    rcases List.mem_append.mp hc with hm | hm
    · exact Or.inl ((h s (by simp)).2 c hm)
    · exact dotGroups_chars (fun x hx => h x (by simp [hx])) c hm

/-- A nonempty well-formed version starts with a digit. -/
theorem joinDots_head {segs : List (List Char)} (h : SegsOK segs) :
    ∃ c t, joinDots segs = c :: t ∧ c.isDigit = true := by
  obtain ⟨hne, hall⟩ := h
  cases segs with
  | nil => exact absurd rfl hne
  | cons s gs =>
    obtain ⟨hs, hd⟩ := hall s (by simp)
    cases s with
    | nil => exact absurd rfl hs
    | cons c t =>
      refine ⟨c, t ++ dotGroups gs, ?_, hd c (List.mem_cons_self c t)⟩
      rw [joinDots_cons]
      rfl

theorem joinDots_ne_nil {segs : List (List Char)} (h : SegsOK segs) :
    joinDots segs ≠ [] := by
  obtain ⟨c, t, he, _⟩ := joinDots_head h
  rw [he]
  simp

/-- A nonempty well-formed version ends with a digit. -/
theorem joinDots_getLast {segs : List (List Char)} (h : SegsOK segs) :
    ∃ c, (joinDots segs).getLast? = some c ∧ c.isDigit = true := by
  induction segs with
  | nil => exact absurd rfl h.1
  | cons s gs ih =>
    cases hgs : gs with
    | nil =>
      subst hgs
      obtain ⟨hs, hd⟩ := h.2 s (by simp)
      cases hsc : s.getLast? with
      | none => rw [List.getLast?_eq_none_iff] at hsc; exact absurd hsc hs
      | some c => exact ⟨c, hsc, hd c (List.mem_of_getLast?_eq_some hsc)⟩
    | cons t rest =>
      subst hgs
      have hok : SegsOK (t :: rest) := ⟨by simp, fun x hx => h.2 x (by simp [hx])⟩
      obtain ⟨c, hc1, hc2⟩ := ih hok
      refine ⟨c, ?_, hc2⟩
      show (s ++ '.' :: joinDots (t :: rest)).getLast? = some c
      rw [List.getLast?_append_of_ne_nil s (by simp)]
      show (['.'] ++ joinDots (t :: rest)).getLast? = some c
      rw [List.getLast?_append_of_ne_nil ['.'] (joinDots_ne_nil hok)]
      exact hc1


/-! ### URL-side computations for the template family -/

theorem unquoteL_cons_ne (c : Char) (l : List Char) (h : c ≠ '%') :
    unquoteL (c :: l) = c :: unquoteL l := by
  conv_lhs => rw [unquoteL.eq_def]
  split
  · rename_i heq
    exact absurd heq (by simp)
  · rename_i a b rest heq
    injection heq with h1 h2
    exact absurd h1 h
  · rename_i c2 rest heq
    injection heq with h1 h2
    rw [h1, h2]

theorem unquoteL_no_pct : ∀ (cs : List Char), (∀ c ∈ cs, c ≠ '%') →
    unquoteL cs = cs := by
  intro cs
  induction cs with
  | nil => intro _; rfl
  | cons c t ih =>
    intro h
    rw [unquoteL_cons_ne c t (h c (by simp))]
    rw [ih (fun x hx => h x (by simp [hx]))]

/-- Version characters avoid any non-digit character other than the dot. -/
theorem verTail_ne {v : List Char} (hv : ∀ c ∈ v, c.isDigit = true ∨ c = '.')
    (d : Char) (hd : d.isDigit = false) (hdot : d ≠ '.') : ∀ c ∈ v, c ≠ d := by
  intro c hc
  rcases hv c hc with h | h
  · exact ne_of_isDigit h hd
  · rw [h]
    exact fun e => hdot e.symm

theorem c3Url_chars_ne {v : List Char}
    (hv : ∀ c ∈ v, c.isDigit = true ∨ c = '.') (d : Char)
    (hd : d.isDigit = false) (hdot : d ≠ '.')
    (hA : ∀ c ∈ "/dl/Telegram-".data, c ≠ d)
    (hB : ∀ c ∈ ".apk".data, c ≠ d) :
    ∀ c ∈ (c3Url v).data, c ≠ d := by
  intro c hc
  rcases List.mem_append.mp hc with h | h
  · exact hA c h
  · rcases List.mem_append.mp h with h2 | h2
    · exact verTail_ne hv d hd hdot c h2
    · exact hB c h2

theorem stripSchemePart_no_colon {cs : List Char} (h : ∀ c ∈ cs, c ≠ ':') :
    stripSchemePart cs = cs := by
  unfold stripSchemePart
  have e : cs.takeWhile (fun c => c ≠ ':') = cs :=
    List.takeWhile_eq_self_iff.mpr (fun x hx => decide_eq_true (h x hx))
  rw [e]
  simp

theorem c3_urlPath {v : List Char}
    (hv : ∀ c ∈ v, c.isDigit = true ∨ c = '.') :
    urlPath (c3Url v).data = "/dl/Telegram-".data ++ (v ++ ".apk".data) := by
  have hcol : ∀ c ∈ (c3Url v).data, c ≠ ':' :=
    c3Url_chars_ne hv ':' (by decide) (by decide) (by decide) (by decide)
  have hsh : ∀ c ∈ (c3Url v).data, c ≠ '#' :=
    c3Url_chars_ne hv '#' (by decide) (by decide) (by decide) (by decide)
  have hq : ∀ c ∈ (c3Url v).data, c ≠ '?' :=
    c3Url_chars_ne hv '?' (by decide) (by decide) (by decide) (by decide)
  unfold urlPath
  rw [stripSchemePart_no_colon hcol]
  rw [show stripNetloc ((c3Url v).data) = (c3Url v).data from rfl]
  rw [List.takeWhile_eq_self_iff.mpr (fun x hx => decide_eq_true (hsh x hx))]
  rw [List.takeWhile_eq_self_iff.mpr (fun x hx => decide_eq_true (hq x hx))]
  rfl

theorem c3_raw {v : List Char}
    (hv : ∀ c ∈ v, c.isDigit = true ∨ c = '.') :
    basenameL (urlPath (c3Url v).data) =
      "Telegram-".data ++ (v ++ ".apk".data) := by
  rw [c3_urlPath hv]
  unfold basenameL
  have e0 : ("/dl/Telegram-".data ++ (v ++ ".apk".data)).reverse =
      ".apk".data.reverse ++ (v.reverse ++ "/dl/Telegram-".data.reverse) := by
    simp [List.reverse_append]
  rw [e0]
  have h1 : ∀ c ∈ ".apk".data.reverse, decide (c ≠ '/') = true := by decide
  rw [takeWhile_append_all _ h1]
  have h2 : ∀ c ∈ v.reverse, decide (c ≠ '/') = true := by
    intro c hc
    exact decide_eq_true
      (verTail_ne hv '/' (by decide) (by decide) c (List.mem_reverse.mp hc))
  rw [takeWhile_append_all _ h2]
  have h3 : "/dl/Telegram-".data.reverse.takeWhile (fun c => c ≠ '/') =
      "Telegram-".data.reverse := by decide
  rw [h3]
  simp [List.reverse_append, List.reverse_reverse]

/-- The decoded filename of the template URL. -/
theorem c3_fn {v : List Char}
    (hv : ∀ c ∈ v, c.isDigit = true ∨ c = '.') :
    unquoteL (basenameL (urlPath (c3Url v).data)) =
      "Telegram-".data ++ (v ++ ".apk".data) := by
  rw [c3_raw hv]
  apply unquoteL_no_pct
  intro c hc
  rcases List.mem_append.mp hc with h | h
  · have hA : ∀ x ∈ "Telegram-".data, x ≠ '%' := by decide
    exact hA c h
  · rcases List.mem_append.mp h with h2 | h2
    · exact verTail_ne hv '%' (by decide) (by decide) c h2
    · have hB : ∀ x ∈ ".apk".data, x ≠ '%' := by decide
      exact hB c h2

/-! ### Identity substitutions and strips -/

theorem containsL_cons (pat : List Char) (c : Char) (t : List Char) :
    containsL pat (c :: t) = (pat.isPrefixOf (c :: t) || containsL pat t) :=
  rfl

theorem containsL_eq_false_of_notMem {a : Char} (p : List Char) :
    ∀ (cs : List Char), a ∉ cs → containsL (a :: p) cs = false := by
  intro cs
  induction cs with
  | nil => intro _; rfl
  | cons c t ih =>
    intro h
    rw [containsL_cons]
    have hac : (a == c) = false := by
      have hne : a ≠ c := fun e => h (e ▸ List.mem_cons_self c t)
      simp [hne]
    rw [show (a :: p).isPrefixOf (c :: t) = ((a == c) && p.isPrefixOf t)
      from rfl]
    rw [hac, ih (fun hx => h (List.mem_cons_of_mem c hx))]
    rfl

theorem scanSubC_litMatchAt_id (lit rep : List Char) :
    ∀ (cs : List Char) (prev : Option Char), containsL lit cs = false →
      scanSubC rep (litMatchAt lit) prev cs = cs := by
  intro cs
  induction cs with
  | nil => intro prev _; rfl
  | cons c t ih =>
    intro prev h
    rw [scanSubC_cons (splitsOff_lit lit)]
    have hnp : litMatchAt lit prev (c :: t) = none := by
      unfold litMatchAt
      rw [if_neg]
      intro hcond
      rw [Bool.and_eq_true] at hcond
      have htrue : containsL lit (c :: t) = true := by
        rw [containsL_cons, hcond.1]
        rfl
      rw [htrue] at h
      exact Bool.noConfusion h
    rw [hnp]
    have ht : containsL lit t = false := by
      rw [containsL_cons] at h
      cases hb : containsL lit t
      · rfl
      · rw [hb] at h
        simp at h
    show c :: scanSubC rep (litMatchAt lit) (some c) t = c :: t
    rw [ih (some c) ht]

theorem replaceAll_id {lit : List Char} (rep : List Char) {cs : List Char}
    (h : containsL lit cs = false) : replaceAll lit rep cs = cs :=
  scanSubC_litMatchAt_id lit rep cs none h

theorem stripAny_eq_self {f : Char → Bool} {cs : List Char}
    (h1 : ∀ c ∈ cs.head?, f c = false)
    (h2 : ∀ c ∈ cs.getLast?, f c = false) :
    stripAny f cs = cs := by
  unfold stripAny
  rw [dropWhile_eq_self_of_head h1]
  have h3 : ∀ c ∈ cs.reverse.head?, f c = false := by
    intro c hc
    rw [List.head?_reverse] at hc
    exact h2 c hc
  rw [dropWhile_eq_self_of_head h3, List.reverse_reverse]

/-! ### The boilerplate scan over the template's combined text -/

theorem boilerMatchAt_none_inert {prev : Option Char} {c : Char}
    (t : List Char) (hdig : c.isDigit = false) (hb : c ≠ 'ب')
    (hm : c ≠ 'م') : boilerMatchAt prev (c :: t) = none := by
  unfold boilerMatchAt
  by_cases hx : xorB prev (c :: t).head? = true
  · rw [if_pos hx]
    have e1 : boilerLit1.isPrefixOf (c :: t) = false := by
      rw [show boilerLit1.isPrefixOf (c :: t) =
        (('ب' == c) && ("ا لینک مستقیم".data).isPrefixOf t) from rfl]
      have : ('ب' == c) = false := by
        have hne2 : ¬('ب' = c) := fun e => hb e.symm
        simp [hne2]
      rw [this]
      rfl
    rw [if_neg (by rw [e1]; simp)]
    have e2 : boilerLit2.isPrefixOf (c :: t) = false := by
      rw [show boilerLit2.isPrefixOf (c :: t) =
        (('م' == c) && ("گابایت".data).isPrefixOf t) from rfl]
      have : ('م' == c) = false := by
        have hne2 : ¬('م' = c) := fun e => hm e.symm
        simp [hne2]
      rw [this]
      rfl
    rw [if_neg (by rw [e2]; simp)]
    have e3 : (c :: t).takeWhile Char.isDigit = [] :=
      List.takeWhile_cons_of_neg (by simp [hdig])
    simp [e3]
  · rw [if_neg hx]

theorem scan_inert :
    ∀ (A : List Char), (∀ c ∈ A, c.isDigit = false ∧ c ≠ 'ب' ∧ c ≠ 'م') →
    ∀ (X : List Char) (prev : Option Char),
      scanSubC [] boilerMatchAt prev (A ++ X) =
        A ++ scanSubC [] boilerMatchAt (lastO prev A) X := by
  intro A
  induction A with
  | nil => intro _ X prev; rfl
  | cons a A2 ih =>
    intro h X prev
    obtain ⟨h1, h2, h3⟩ := h a (by simp)
    rw [show (a :: A2) ++ X = a :: (A2 ++ X) from rfl]
    rw [scanSubC_cons splitsOff_boiler]
    rw [boilerMatchAt_none_inert (A2 ++ X) h1 h2 h3]
    show a :: scanSubC [] boilerMatchAt (some a) (A2 ++ X) =
      (a :: A2) ++ scanSubC [] boilerMatchAt (lastO prev (a :: A2)) X
    rw [ih (fun c hc => h c (by simp [hc])) X (some a)]
    rfl

theorem isDigit_false_of_not_word {c : Char} (h : isWordChar c = false) :
    c.isDigit = false := by
  cases hd : c.isDigit
  · rfl
  · rw [isWordChar_digit hd] at h
    exact Bool.noConfusion h

theorem boilerMatchAt_digits {prev : Option Char} {ds : List Char}
    (hne : ds ≠ []) (hd : ∀ c ∈ ds, c.isDigit = true)
    (hprev : optWord prev = false) {X : List Char}
    (hX : optWord X.head? = false) :
    boilerMatchAt prev (ds ++ X) = some (ds, X) := by
  cases ds with
  | nil => exact absurd rfl hne
  | cons d t =>
    have hd0 : d.isDigit = true := hd d (by simp)
    unfold boilerMatchAt
    have hx : xorB prev ((d :: t) ++ X).head? = true := by
      show xorB prev (some d) = true
      unfold xorB
      rw [hprev]
      simp [optWord, isWordChar_digit hd0]
    rw [if_pos hx]
    have e1 : boilerLit1.isPrefixOf ((d :: t) ++ X) = false := by
      rw [show boilerLit1.isPrefixOf ((d :: t) ++ X) =
        (('ب' == d) && ("ا لینک مستقیم".data).isPrefixOf (t ++ X)) from rfl]
      have : ('ب' == d) = false := by
        have hne2 : ¬('ب' = d) :=
          fun e => (ne_of_isDigit hd0 (by decide) : d ≠ 'ب') e.symm
        simp [hne2]
      rw [this]
      rfl
    rw [if_neg (by rw [e1]; simp)]
    have e2 : boilerLit2.isPrefixOf ((d :: t) ++ X) = false := by
      rw [show boilerLit2.isPrefixOf ((d :: t) ++ X) =
        (('م' == d) && ("گابایت".data).isPrefixOf (t ++ X)) from rfl]
      have : ('م' == d) = false := by
        have hne2 : ¬('م' = d) :=
          fun e => (ne_of_isDigit hd0 (by decide) : d ≠ 'م') e.symm
        simp [hne2]
      rw [this]
      rfl
    rw [if_neg (by rw [e2]; simp)]
    have hXd : X.takeWhile Char.isDigit = [] := by
      cases X with
      | nil => rfl
      | cons x xs =>
        have hw : isWordChar x = false := by simpa [optWord] using hX
        exact List.takeWhile_cons_of_neg (by simp [isDigit_false_of_not_word hw])
    have hXd2 : X.dropWhile Char.isDigit = X := by
      apply dropWhile_eq_self_of_head
      intro x hx2
      cases X with
      | nil => simp at hx2
      | cons y ys =>
        have hy : y = x := by simpa using hx2
        have hw : isWordChar y = false := by simpa [optWord] using hX
        rw [← hy]
        exact isDigit_false_of_not_word hw
    have e3 : ((d :: t) ++ X).takeWhile Char.isDigit = d :: t := by
      rw [takeWhile_append_all X (fun c hc => hd c hc), hXd, List.append_nil]
    have e4 : ((d :: t) ++ X).dropWhile Char.isDigit = X := by
      rw [dropWhile_append_all X (fun c hc => hd c hc), hXd2]
    rw [show (d :: t) ++ X = d :: (t ++ X) from rfl] at e3 e4
    simp [e3, e4, hX, hd0]

theorem seg_last_digit {s : List Char} (hs : SegOK s) :
    ∃ dl, s.getLast? = some dl ∧ dl.isDigit = true := by
  obtain ⟨hne, hd⟩ := hs
  cases hg : s.getLast? with
  | none => rw [List.getLast?_eq_none_iff] at hg; exact absurd hg hne
  | some dl => exact ⟨dl, rfl, hd dl (List.mem_of_getLast?_eq_some hg)⟩

theorem scan_seg {s : List Char} (hs : SegOK s) {prev : Option Char}
    (hprev : optWord prev = false) {X : List Char}
    (hX : optWord X.head? = false) :
    ∃ dl, dl.isDigit = true ∧
      scanSubC [] boilerMatchAt prev (s ++ X) =
        scanSubC [] boilerMatchAt (some dl) X := by
  obtain ⟨dl, hgl, hdig⟩ := seg_last_digit hs
  refine ⟨dl, hdig, ?_⟩
  cases s with
  | nil => exact absurd rfl hs.1
  | cons d t =>
    rw [show (d :: t) ++ X = d :: (t ++ X) from rfl]
    rw [scanSubC_cons splitsOff_boiler]
    rw [show d :: (t ++ X) = (d :: t) ++ X from rfl]
    rw [boilerMatchAt_digits hs.1 hs.2 hprev hX]
    show scanSubC [] boilerMatchAt (lastO prev (d :: t)) X =
      scanSubC [] boilerMatchAt (some dl) X
    rw [lastO_getLast t d prev, hgl]

theorem scan_ver :
    ∀ (segs : List (List Char)), (∀ s ∈ segs, SegOK s) → segs ≠ [] →
    ∀ (prev : Option Char), optWord prev = false →
    ∀ (X K : List Char), optWord X.head? = false →
      (∀ d : Char, d.isDigit = true →
        scanSubC [] boilerMatchAt (some d) X = K) →
      scanSubC [] boilerMatchAt prev (joinDots segs ++ X) =
        List.replicate (segs.length - 1) '.' ++ K := by
  intro segs
  induction segs with
  | nil => intro _ h; exact absurd rfl h
  | cons s gs ih =>
    intro hok _ prev hprev X K hX hK
    cases gs with
    | nil =>
      show scanSubC [] boilerMatchAt prev (s ++ X) = List.replicate 0 '.' ++ K
      obtain ⟨dl, hdig, he⟩ := scan_seg (hok s (by simp)) hprev hX
      rw [he, hK dl hdig]
      rfl
    | cons g gs2 =>
      have hjoin : joinDots (s :: g :: gs2) ++ X =
          s ++ ('.' :: (joinDots (g :: gs2) ++ X)) := by
        show (s ++ '.' :: joinDots (g :: gs2)) ++ X = _
        rw [List.append_assoc]
        rfl
      rw [hjoin]
      have hdot : optWord ('.' :: (joinDots (g :: gs2) ++ X)).head? = false := by
        show optWord (some '.') = false
        decide
      obtain ⟨dl, hdig, he⟩ := scan_seg (hok s (by simp)) hprev
        (X := '.' :: (joinDots (g :: gs2) ++ X)) hdot
      rw [he]
      rw [scanSubC_cons splitsOff_boiler]
      rw [boilerMatchAt_none_inert (joinDots (g :: gs2) ++ X) (by decide)
        (by decide) (by decide)]
      show '.' :: scanSubC [] boilerMatchAt (some '.')
          (joinDots (g :: gs2) ++ X) =
        List.replicate ((s :: g :: gs2).length - 1) '.' ++ K
      rw [ih (fun x hx => hok x (by simp [hx])) (by simp) (some '.')
        (by decide) X K hX hK]
      show '.' :: (List.replicate ((g :: gs2).length - 1) '.' ++ K) =
        List.replicate (gs2.length + 1) '.' ++ K
      rw [show (g :: gs2).length - 1 = gs2.length from rfl]
      rw [List.replicate_succ]
      rfl

/-! ### Canonical combined text of the template family -/

theorem scanSub_len_eq (rep : List Char)
    (m : Option Char → List Char → Option (List Char × List Char))
    (prev : Option Char) (cs : List Char) :
    scanSub rep m cs.length prev cs = scanSubC rep m prev cs := rfl

/-- The combined variant-detection text of the template family depends only
on the number of version segments. -/
def c3Combined (k : Nat) : List Char :=
  stripWs ("telegram-".data ++ (List.replicate (k - 1) '.' ++
    (".apk download telegram ".data ++ List.replicate (k - 1) '.')))

theorem c3_combined {segs : List (List Char)} (h : SegsOK segs) :
    combinedTextOf (c3Link (joinDots segs))
      ⟨unquoteL (basenameL (urlPath (c3Url (joinDots segs)).data))⟩ =
      c3Combined segs.length := by
  have hv : ∀ c ∈ joinDots segs, c.isDigit = true ∨ c = '.' :=
    joinDots_chars h.2
  have hlow : ∀ c ∈ joinDots segs, Char.toLower c = c := by
    intro c hc
    rcases hv c hc with hd | hd
    · exact toLower_digit hd
    · rw [hd]
      decide
  rw [c3_fn hv]
  simp only [combinedTextOf]
  have hm1 : (String.mk ("Telegram-".data ++ (joinDots segs ++ ".apk".data))
      ).data.map Char.toLower =
      "telegram-".data ++ (joinDots segs ++ ".apk".data) := by
    show ("Telegram-".data ++ (joinDots segs ++ ".apk".data)).map Char.toLower
      = _
    rw [List.map_append, List.map_append]
    rw [show "Telegram-".data.map Char.toLower = "telegram-".data by decide]
    rw [map_eq_self_of hlow]
    rw [show ".apk".data.map Char.toLower = ".apk".data by decide]
  have hm2 : (c3Link (joinDots segs)).data.map Char.toLower =
      "download telegram ".data ++ joinDots segs := by
    show ("Download Telegram ".data ++ joinDots segs).map Char.toLower = _
    rw [List.map_append]
    rw [show "Download Telegram ".data.map Char.toLower =
      "download telegram ".data by decide]
    rw [map_eq_self_of hlow]
  rw [hm1, hm2]
  have hassoc : ("telegram-".data ++ (joinDots segs ++ ".apk".data)) ++
      ' ' :: ("download telegram ".data ++ joinDots segs) =
      "telegram-".data ++ (joinDots segs ++
        (".apk download telegram ".data ++ joinDots segs)) := by
    simp only [List.append_assoc]
    rfl
  rw [hassoc]
  have hmem : ∀ (d : Char), d.isDigit = false → d ≠ '.' →
      (∀ x ∈ "telegram-".data, x ≠ d) →
      (∀ x ∈ ".apk download telegram ".data, x ≠ d) →
      d ∉ ("telegram-".data ++ (joinDots segs ++
        (".apk download telegram ".data ++ joinDots segs))) := by
    intro d h1 h2 hA hB hd
    rcases List.mem_append.mp hd with hm | hm
    · exact hA d hm rfl
    · rcases List.mem_append.mp hm with hm2 | hm2
      · exact verTail_ne hv d h1 h2 d hm2 rfl
      · rcases List.mem_append.mp hm2 with hm3 | hm3
        · exact hB d hm3 rfl
        · exact verTail_ne hv d h1 h2 d hm3 rfl
  have hc1 : containsL "(farsroid.com)".data
      ("telegram-".data ++ (joinDots segs ++
        (".apk download telegram ".data ++ joinDots segs))) = false := by
    rw [show "(farsroid.com)".data = '(' :: "farsroid.com)".data from rfl]
    exact containsL_eq_false_of_notMem _ _
      (hmem '(' (by decide) (by decide) (by decide) (by decide))
  have hc2 : containsL "دانلود فایل نصبی".data
      ("telegram-".data ++ (joinDots segs ++
        (".apk download telegram ".data ++ joinDots segs))) = false := by
    rw [show "دانلود فایل نصبی".data = 'د' :: "انلود فایل نصبی".data from rfl]
    exact containsL_eq_false_of_notMem _ _
      (hmem 'د' (by decide) (by decide) (by decide) (by decide))
  have hc3 : containsL "برنامه با لینک مستقیم".data
      ("telegram-".data ++ (joinDots segs ++
        (".apk download telegram ".data ++ joinDots segs))) = false := by
    rw [show "برنامه با لینک مستقیم".data =
      'ب' :: "رنامه با لینک مستقیم".data from rfl]
    exact containsL_eq_false_of_notMem _ _
      (hmem 'ب' (by decide) (by decide) (by decide) (by decide))
  rw [replaceAll_id [] hc1, replaceAll_id [] hc2, replaceAll_id [] hc3]
  have hstrip : stripWs ("telegram-".data ++ (joinDots segs ++
      (".apk download telegram ".data ++ joinDots segs))) =
      "telegram-".data ++ (joinDots segs ++
        (".apk download telegram ".data ++ joinDots segs)) := by
    apply stripAny_eq_self
    · intro c hc
      have : 't' = c := by simpa using hc
      rw [← this]
      decide
    · intro c hc
      rw [List.getLast?_append_of_ne_nil "telegram-".data
        (by simp [joinDots_ne_nil h])] at hc
      rw [List.getLast?_append_of_ne_nil (joinDots segs)
        (by simp [joinDots_ne_nil h])] at hc
      rw [List.getLast?_append_of_ne_nil ".apk download telegram ".data
        (joinDots_ne_nil h)] at hc
      obtain ⟨dl, hdl, hdig⟩ := joinDots_getLast h
      rw [hdl] at hc
      have : dl = c := by simpa using hc
      rw [← this]
      exact isSpaceChar_digit hdig
  rw [hstrip, scanSub_len_eq]
  have hKinner := scan_ver segs h.2 h.1 (some ' ') (by decide) [] []
    (by decide) (fun d _ => rfl)
  rw [List.append_nil, List.append_nil] at hKinner
  have hK : ∀ d : Char, d.isDigit = true →
      scanSubC [] boilerMatchAt (some d)
        (".apk download telegram ".data ++ joinDots segs) =
      ".apk download telegram ".data ++
        List.replicate (segs.length - 1) '.' := by
    intro d _
    rw [scan_inert ".apk download telegram ".data (by decide)
      (joinDots segs) (some d)]
    rw [show lastO (some d) ".apk download telegram ".data = some ' '
      from rfl]
    rw [hKinner]
  have hX : optWord ((".apk download telegram ".data ++
      joinDots segs)).head? = false := by
    show optWord (some '.') = false
    decide
  rw [scan_inert "telegram-".data (by decide)
    (joinDots segs ++ (".apk download telegram ".data ++ joinDots segs))
    none]
  rw [show lastO none "telegram-".data = some '-' from rfl]
  rw [scan_ver segs h.2 h.1 (some '-') (by decide)
    (".apk download telegram ".data ++ joinDots segs)
    (".apk download telegram ".data ++ List.replicate (segs.length - 1) '.')
    hX hK]
  rfl

/-! ### Extension resolution for the template family -/

theorem ver_map_toLower {v : List Char}
    (hv : ∀ c ∈ v, c.isDigit = true ∨ c = '.') :
    v.map Char.toLower = v :=
  map_eq_self_of (fun c hc => by
    rcases hv c hc with hd | hd
    · exact toLower_digit hd
    · rw [hd]
      decide)

theorem endsWithL_false_of_tail {s2 suf cs : List Char} (hsuf : s2 <:+ suf)
    (h : endsWithL s2 cs = false) : endsWithL suf cs = false := by
  cases he : endsWithL suf cs
  · rfl
  · have h1 : suf <:+ cs := by
      have : suf.isSuffixOf cs = true := he
      exact List.isSuffixOf_iff_suffix.mp this
    have h2 : s2 <:+ cs := hsuf.trans h1
    have h3 : endsWithL s2 cs = true := by
      show s2.isSuffixOf cs = true
      exact List.isSuffixOf_iff_suffix.mpr h2
    rw [h3] at h
    exact Bool.noConfusion h

theorem endsWithL_append_right {s ys : List Char} (xs : List Char)
    (h : s.length ≤ ys.length) : endsWithL s (xs ++ ys) = endsWithL s ys := by
  have key : (s <:+ xs ++ ys) ↔ (s <:+ ys) := by
    constructor
    · intro hs
      rw [List.suffix_iff_eq_drop] at hs
      rw [List.length_append, show xs.length + ys.length - s.length =
        xs.length + (ys.length - s.length) from by omega,
        List.drop_append] at hs
      rw [hs]
      exact List.drop_suffix _ _
    · intro hs
      obtain ⟨p, hp⟩ := hs
      exact ⟨xs ++ p, by rw [List.append_assoc, hp]⟩
  show s.isSuffixOf (xs ++ ys) = s.isSuffixOf ys
  cases hy : s.isSuffixOf ys
  · cases hxy : s.isSuffixOf (xs ++ ys)
    · rfl
    · have h1 : s <:+ ys := key.mp (List.isSuffixOf_iff_suffix.mp hxy)
      have h2 : s.isSuffixOf ys = true := List.isSuffixOf_iff_suffix.mpr h1
      rw [h2] at hy
      exact Bool.noConfusion hy
  · exact List.isSuffixOf_iff_suffix.mpr (key.mpr (List.isSuffixOf_iff_suffix.mp hy))

theorem extSplit_append_ext {xs E : List Char} (hE : ∀ c ∈ E, c ≠ '.')
    (hx : ∃ c ∈ xs, c ≠ '.') : extSplit (xs ++ '.' :: E) = '.' :: E := by
  have hxne : xs ≠ [] := by
    obtain ⟨c, hc, _⟩ := hx
    intro he
    rw [he] at hc
    simp at hc
  have htail : (xs ++ '.' :: E).reverse.takeWhile (fun c => c ≠ '.') =
      E.reverse := by
    rw [List.reverse_append, List.reverse_cons, List.append_assoc]
    rw [takeWhile_append_all _ (fun x hxm =>
      decide_eq_true (hE x (List.mem_reverse.mp hxm)))]
    rw [show (['.'] ++ xs.reverse).takeWhile (fun c => c ≠ '.') = []
      from List.takeWhile_cons_of_neg (by simp)]
    rw [List.append_nil]
  show (if ((xs ++ '.' :: E).reverse.takeWhile (fun c => c ≠ '.')).length =
      (xs ++ '.' :: E).length then []
    else if ((xs ++ '.' :: E).take ((xs ++ '.' :: E).length -
        ((xs ++ '.' :: E).reverse.takeWhile (fun c => c ≠ '.')).length -
        1)).any (fun c => c ≠ '.') then
      '.' :: ((xs ++ '.' :: E).reverse.takeWhile (fun c => c ≠ '.')).reverse
    else []) = '.' :: E
  rw [htail]
  have hxlen : 0 < xs.length := List.length_pos.mpr hxne
  rw [if_neg (by
    rw [List.length_reverse, List.length_append, List.length_cons]
    omega)]
  have hamount : (xs ++ '.' :: E).length - E.reverse.length - 1 =
      xs.length := by
    rw [List.length_reverse, List.length_append, List.length_cons]
    omega
  rw [hamount]
  rw [show (xs ++ '.' :: E).take xs.length = xs from List.take_left xs _]
  rw [if_pos (by
    obtain ⟨c, hc, hcne⟩ := hx
    exact List.any_eq_true.mpr ⟨c, hc, decide_eq_true hcne⟩)]
  rw [List.reverse_reverse]

theorem c3_ext {v : List Char}
    (hv : ∀ c ∈ v, c.isDigit = true ∨ c = '.')
    (t : String) : get_file_extension_from_url (c3Url v) t = ".apk" := by
  have hraw := c3_raw hv
  simp only [get_file_extension_from_url]
  rw [hraw]
  have hrawLower : ("Telegram-".data ++ (v ++ ".apk".data)).map Char.toLower =
      ("telegram-".data ++ v) ++ ".apk".data := by
    rw [List.map_append, List.map_append]
    rw [show "Telegram-".data.map Char.toLower = "telegram-".data by decide]
    rw [ver_map_toLower hv]
    rw [show ".apk".data.map Char.toLower = ".apk".data by decide]
    rw [List.append_assoc]
  rw [hrawLower]
  have harc : ∀ (suf s2 : List Char), s2 <:+ suf → s2.length ≤ 4 →
      endsWithL s2 ".apk".data = false →
      endsWithL suf (("telegram-".data ++ v) ++ ".apk".data) = false := by
    intro suf s2 hs hlen he
    apply endsWithL_false_of_tail hs
    rw [endsWithL_append_right _ (by simpa using hlen)]
    exact he
  rw [harc ".tar.gz".data "r.gz".data ⟨".ta".data, rfl⟩ (by decide)
    (by decide)]
  rw [harc ".tar.bz2".data ".bz2".data ⟨".tar".data, rfl⟩ (by decide)
    (by decide)]
  rw [harc ".tar.xz".data "r.xz".data ⟨".ta".data, rfl⟩ (by decide)
    (by decide)]
  have hsplit : extSplit ("Telegram-".data ++ (v ++ ".apk".data)) =
      '.' :: "apk".data := by
    rw [show "Telegram-".data ++ (v ++ ".apk".data) =
      ("Telegram-".data ++ v) ++ '.' :: "apk".data from by
        rw [List.append_assoc]]
    exact extSplit_append_ext (by decide)
      ⟨'T', List.mem_append_left _ (by decide), by decide⟩
  rw [hsplit]
  have hcond : (!('.' :: "apk".data).isEmpty &&
      known_extensions.contains
        (⟨('.' :: "apk".data).map Char.toLower⟩ : String)) = true := by
    decide
  rw [if_pos hcond]
  decide

/-! ### Greedy first-match computation for the cleaning patterns -/

/-- The first (most preferred) remainder the engine returns. -/
def FirstRem (m : Matcher) (cs r : List Char) : Prop :=
  ∃ junk, m cs = r :: junk

theorem rep1M_nil_of {a : Matcher} {cs : List Char} (h : a cs = []) :
    ∀ n, rep1M n a cs = [] := by
  intro n
  cases n with
  | zero => rfl
  | succ k =>
    show (a cs).flatMap _ = []
    rw [h]
    rfl

theorem chCls_cons_neg {f : Char → Bool} {c : Char} (t : List Char)
    (h : f c = false) : chCls f (c :: t) = [] := by
  unfold chCls
  simp [h]

theorem seq_nil_left {a b : Matcher} {cs : List Char} (h : a cs = []) :
    seqM a b cs = [] := by
  show (a cs).flatMap b = []
  rw [h]
  rfl

theorem first_chCls {f : Char → Bool} {c : Char} (t : List Char)
    (h : f c = true) : FirstRem (chCls f) (c :: t) t := by
  refine ⟨[], ?_⟩
  unfold chCls
  simp [h]

theorem first_seq {a b : Matcher} {cs mid r : List Char}
    (ha : FirstRem a cs mid) (hb : FirstRem b mid r) :
    FirstRem (seqM a b) cs r := by
  obtain ⟨j1, h1⟩ := ha
  obtain ⟨j2, h2⟩ := hb
  refine ⟨j2 ++ j1.flatMap b, ?_⟩
  show (a cs).flatMap b = _
  rw [h1, List.flatMap_cons, h2]
  rfl

theorem first_opt_present {a : Matcher} {cs r : List Char}
    (ha : FirstRem a cs r) : FirstRem (optM a) cs r := by
  obtain ⟨j, h⟩ := ha
  refine ⟨j ++ [cs], ?_⟩
  show a cs ++ [cs] = _
  rw [h]
  rfl

theorem first_opt_eps {a : Matcher} {cs : List Char} (h : a cs = []) :
    FirstRem (optM a) cs cs := by
  refine ⟨[], ?_⟩
  show a cs ++ [cs] = _
  rw [h]
  rfl

theorem first_star_rep {a : Matcher} {n : Nat} {cs r : List Char}
    (ha : FirstRem (rep1M n a) cs r) : FirstRem (starM n a) cs r := by
  obtain ⟨j, h⟩ := ha
  refine ⟨j ++ [cs], ?_⟩
  show rep1M n a cs ++ [cs] = _
  rw [h]
  rfl

/-- Greedy `+` over a class: a maximal nonempty run is tried first. -/
theorem first_rep1_class (f : Char → Bool) :
    ∀ (ds : List Char), ds ≠ [] → (∀ c ∈ ds, f c = true) →
    ∀ (X : List Char), chCls f X = [] →
    ∀ (n : Nat), ds.length ≤ n →
      FirstRem (rep1M n (chCls f)) (ds ++ X) X := by
  intro ds
  induction ds with
  | nil => intro h; exact absurd rfl h
  | cons d t ih =>
    intro _ hall X hX n hn
    cases n with
    | zero => simp at hn
    | succ m =>
      have hd : f d = true := hall d (by simp)
      cases t with
      | nil =>
        refine ⟨[], ?_⟩
        show (chCls f ([d] ++ X)).flatMap
          (fun r => rep1M m (chCls f) r ++ [r]) = [X]
        rw [show chCls f ([d] ++ X) = [X] from by
          unfold chCls
          simp [hd]]
        rw [List.flatMap_cons, rep1M_nil_of hX m]
        rfl
      | cons d2 t2 =>
        obtain ⟨j, hj⟩ := ih (by simp)
          (fun c hc => hall c (by simp [hc])) X hX m
          (by simp only [List.length_cons] at hn ⊢; omega)
        refine ⟨j ++ [(d2 :: t2) ++ X], ?_⟩
        show (chCls f ((d :: d2 :: t2) ++ X)).flatMap
          (fun r => rep1M m (chCls f) r ++ [r]) =
          X :: (j ++ [(d2 :: t2) ++ X])
        rw [show chCls f ((d :: d2 :: t2) ++ X) = [(d2 :: t2) ++ X] from by
          unfold chCls
          simp [hd]]
        rw [List.flatMap_cons, hj]
        simp

theorem first_dotDigits {ds X : List Char} (hne : ds ≠ [])
    (hd : ∀ c ∈ ds, c.isDigit = true) (hX : chCls Char.isDigit X = [])
    {n : Nat} (hn : ds.length ≤ n) :
    FirstRem (dotDigits n) ('.' :: (ds ++ X)) X :=
  first_seq (first_chCls (ds ++ X) (by decide))
    (first_rep1_class Char.isDigit ds hne hd X hX n hn)

theorem dotDigits_nil {X : List Char}
    (hXdot : chCls (fun c => c = '.') X = []) (n : Nat) :
    dotDigits n X = [] :=
  seq_nil_left hXdot

theorem unitP1_nil (n : Nat) : unitP1 n [] = [] := by
  show (optM (chCls (fun c => c = '-' || c = '.' || c = '_')) []).flatMap
    (rep1M n (chCls Char.isAlphanum)) = []
  rw [show optM (chCls (fun c => c = '-' || c = '.' || c = '_')) [] = [[]]
    from rfl]
  rw [List.flatMap_cons]
  rw [rep1M_nil_of (show chCls Char.isAlphanum [] = [] from rfl) n]
  rfl

theorem first_unit {g R : List Char} (hne : g ≠ [])
    (hg : ∀ c ∈ g, c.isDigit = true) (hR : chCls Char.isAlphanum R = [])
    {n : Nat} (hn : g.length ≤ n) :
    FirstRem (unitP1 n) ('.' :: (g ++ R)) R :=
  first_seq (first_opt_present (first_chCls (g ++ R) (by decide)))
    (first_rep1_class Char.isAlphanum g hne
      (fun c hc => by simp [Char.isAlphanum, hg c hc]) R hR n hn)

theorem dotGroups_nil : dotGroups [] = [] := rfl

theorem dotGroups_cons (g : List Char) (rest : List (List Char)) :
    dotGroups (g :: rest) = '.' :: (g ++ dotGroups rest) := by
  simp [dotGroups]

/-- Greedy `+` of suffix units: all remaining dot-groups are consumed
first. -/
theorem first_rep1_units :
    ∀ (gs : List (List Char)), gs ≠ [] → (∀ s ∈ gs, SegOK s) →
    ∀ (k n : Nat), gs.length ≤ k → (∀ s ∈ gs, s.length ≤ n) →
      FirstRem (rep1M k (unitP1 n)) (dotGroups gs) [] := by
  intro gs
  induction gs with
  | nil => intro h; exact absurd rfl h
  | cons g rest ih =>
    intro _ hok k n hk hn
    cases k with
    | zero => simp at hk
    | succ m =>
      obtain ⟨hgne, hgd⟩ := hok g (by simp)
      cases rest with
      | nil =>
        obtain ⟨j, hj⟩ := first_unit (R := []) hgne hgd rfl
          (hn g (by simp))
        refine ⟨j.flatMap (fun r => rep1M m (unitP1 n) r ++ [r]), ?_⟩
        rw [dotGroups_cons, dotGroups_nil]
        show (unitP1 n ('.' :: (g ++ []))).flatMap
          (fun r => rep1M m (unitP1 n) r ++ [r]) = _
        rw [hj, List.flatMap_cons]
        rw [rep1M_nil_of (unitP1_nil n) m]
        rfl
      | cons g2 rest2 =>
        have hR : chCls Char.isAlphanum (dotGroups (g2 :: rest2)) = [] := by
          rw [dotGroups_cons]
          exact chCls_cons_neg _ (by decide)
        obtain ⟨j, hj⟩ := first_unit (R := dotGroups (g2 :: rest2)) hgne hgd
          hR (hn g (by simp))
        obtain ⟨j2, hj2⟩ := ih (by simp)
          (fun s hs => hok s (by simp [hs])) m n
          (by simp only [List.length_cons] at hk ⊢; omega)
          (fun s hs => hn s (by simp [hs]))
        refine ⟨(j2 ++ [dotGroups (g2 :: rest2)]) ++
          j.flatMap (fun r => rep1M m (unitP1 n) r ++ [r]), ?_⟩
        rw [dotGroups_cons]
        show (unitP1 n ('.' :: (g ++ dotGroups (g2 :: rest2)))).flatMap
          (fun r => rep1M m (unitP1 n) r ++ [r]) = _
        rw [hj, List.flatMap_cons, hj2]
        simp

/-! ### First match of the primary cleaning pattern on the template title -/

theorem first_req {n : Nat} :
    ∀ (gs : List (List Char)), gs ≠ [] → (∀ s ∈ gs, SegOK s) →
    ∀ (X : List Char), chCls Char.isDigit X = [] →
      chCls (fun c => c = '.') X = [] →
      (∀ s ∈ gs, s.length ≤ n) →
      FirstRem
        (seqM (dotDigits n)
          (optM (seqM (dotDigits n) (optM (dotDigits n)))))
        (dotGroups gs ++ X) (dotGroups (gs.drop 3) ++ X) := by
  intro gs hne hok X hXd hXdot hn
  cases gs with
  | nil => exact absurd rfl hne
  | cons g1 rest1 =>
    have hg1 := hok g1 (by simp)
    cases rest1 with
    | nil =>
      have e : dotGroups [g1] ++ X = '.' :: (g1 ++ X) := by
        rw [dotGroups_cons, dotGroups_nil, List.append_nil]
        rfl
      rw [e]
      exact first_seq (first_dotDigits hg1.1 hg1.2 hXd (hn g1 (by simp)))
        (first_opt_eps (seq_nil_left (dotDigits_nil hXdot n)))
    | cons g2 rest2 =>
      have hg2 := hok g2 (by simp)
      cases rest2 with
      | nil =>
        have e : dotGroups [g1, g2] ++ X =
            '.' :: (g1 ++ ('.' :: (g2 ++ X))) := by
          rw [dotGroups_cons, dotGroups_cons, dotGroups_nil, List.append_nil]
          simp [List.append_assoc]
        rw [e]
        exact first_seq
          (first_dotDigits hg1.1 hg1.2 (chCls_cons_neg _ (by decide))
            (hn g1 (by simp)))
          (first_opt_present (first_seq
            (first_dotDigits hg2.1 hg2.2 hXd (hn g2 (by simp)))
            (first_opt_eps (dotDigits_nil hXdot n))))
      | cons g3 rest3 =>
        have hg3 := hok g3 (by simp)
        have e : dotGroups (g1 :: g2 :: g3 :: rest3) ++ X =
            '.' :: (g1 ++ ('.' :: (g2 ++ ('.' ::
              (g3 ++ (dotGroups rest3 ++ X)))))) := by
          rw [dotGroups_cons, dotGroups_cons, dotGroups_cons]
          simp [List.append_assoc]
        rw [e]
        have hR : chCls Char.isDigit (dotGroups rest3 ++ X) = [] := by
          cases rest3 with
          | nil => rw [dotGroups_nil]; exact hXd
          | cons a b =>
            rw [dotGroups_cons]
            exact chCls_cons_neg _ (by decide)
        exact first_seq
          (first_dotDigits hg1.1 hg1.2 (chCls_cons_neg _ (by decide))
            (hn g1 (by simp)))
          (first_opt_present (first_seq
            (first_dotDigits hg2.1 hg2.2 (chCls_cons_neg _ (by decide))
              (hn g2 (by simp)))
            (first_opt_present
              (first_dotDigits hg3.1 hg3.2 hR (hn g3 (by simp))))))

theorem joinDots_length_ge :
    ∀ (segs : List (List Char)) (s : List Char), s ∈ segs →
      s.length ≤ (joinDots segs).length := by
  intro segs
  induction segs with
  | nil => intro s hs; simp at hs
  | cons a rest ih =>
    intro s hs
    rw [joinDots_cons, List.length_append]
    rcases List.mem_cons.mp hs with h | h
    · rw [h]
      omega
    · have h1 := ih s h
      have h2 : (joinDots rest).length ≤ (dotGroups rest).length := by
        cases rest with
        | nil => simp [joinDots, dotGroups_nil]
        | cons b r2 =>
          rw [joinDots_cons, dotGroups_cons]
          simp
      omega

theorem dotGroups_count_le :
    ∀ (gs : List (List Char)), gs.length ≤ (dotGroups gs).length := by
  intro gs
  induction gs with
  | nil => simp [dotGroups_nil]
  | cons g rest ih =>
    rw [dotGroups_cons]
    simp only [List.length_cons, List.length_append]
    omega

theorem shrinking_cleanPat1 (n : Nat) : Shrinking (cleanPat1 n) :=
  shrinking_seqM (shrinking_starM (shrinking_chCls _) n)
    (shrinking_seqM (shrinking_optM (shrinking_chCls _))
      (shrinking_seqM (shrinking_rep1M (shrinking_chCls _) n)
        (shrinking_cleanTail1 n)))

theorem seq_single {a b : Matcher} {cs cs2 : List Char}
    (h : a cs = [cs2]) : seqM a b cs = b cs2 := by
  show (a cs).flatMap b = b cs2
  rw [h]
  simp

theorem cleanPat1_nil {c : Char} (t : List Char) (n : Nat)
    (h1 : isSpaceChar c = false) (h2 : c ≠ 'v') (h3 : c ≠ 'V')
    (h4 : c.isDigit = false) : cleanPat1 n (c :: t) = [] := by
  have hs : spaceM (c :: t) = [] := chCls_cons_neg t h1
  have hvm : vMarkM (c :: t) = [] := chCls_cons_neg t (by simp [h2, h3])
  have hdm : digitM (c :: t) = [] := chCls_cons_neg t h4
  unfold cleanPat1
  rw [seq_single (show starM n spaceM (c :: t) = [c :: t] from by
    unfold starM
    rw [rep1M_nil_of hs n]
    rfl)]
  rw [seq_single (show optM vMarkM (c :: t) = [c :: t] from by
    show vMarkM (c :: t) ++ [c :: t] = [c :: t]
    rw [hvm]
    rfl)]
  exact seq_nil_left (rep1M_nil_of hdm n)

theorem cleanMatchAt_none {pat : Nat → Matcher} {cs : List Char}
    (h : pat (fuelOf cs) cs = []) (prev : Option Char) :
    cleanMatchAt pat prev cs = none := by
  unfold cleanMatchAt
  rw [h]
  rfl

theorem scan_none_run {matchAt : Option Char → List Char →
      Option (List Char × List Char)} (hma : SplitsOff matchAt) :
    ∀ (A : List Char),
      (∀ c ∈ A, ∀ (t : List Char) (prev : Option Char),
        matchAt prev (c :: t) = none) →
    ∀ (X : List Char) (prev : Option Char),
      scanSubC [] matchAt prev (A ++ X) =
        A ++ scanSubC [] matchAt (lastO prev A) X := by
  intro A
  induction A with
  | nil => intro _ X prev; rfl
  | cons a A2 ih =>
    intro h X prev
    rw [show (a :: A2) ++ X = a :: (A2 ++ X) from rfl]
    rw [scanSubC_cons hma]
    rw [h a (by simp) (A2 ++ X) prev]
    show a :: scanSubC [] matchAt (some a) (A2 ++ X) =
      (a :: A2) ++ scanSubC [] matchAt (lastO prev (a :: A2)) X
    rw [ih (fun c hc => h c (by simp [hc])) X (some a)]
    rfl

theorem first_cleanPat1 {segs : List (List Char)} (h : SegsOK segs)
    (hlen2 : 2 ≤ segs.length) {n : Nat}
    (hn : (joinDots segs).length ≤ n) :
    FirstRem (cleanPat1 n) (' ' :: joinDots segs) [] := by
  cases segs with
  | nil => exact absurd rfl h.1
  | cons s1 gs =>
    have hgs : gs ≠ [] := by
      intro he
      rw [he] at hlen2
      simp at hlen2
    have hs1 : SegOK s1 := h.2 s1 (by simp)
    have hokgs : ∀ s ∈ gs, SegOK s := fun s hs => h.2 s (by simp [hs])
    obtain ⟨c0, t0, hv_eq, hc0⟩ := joinDots_head h
    have hvspace : chCls isSpaceChar (joinDots (s1 :: gs)) = [] := by
      rw [hv_eq]
      exact chCls_cons_neg _ (isSpaceChar_digit hc0)
    have hvmark : vMarkM (joinDots (s1 :: gs)) = [] := by
      rw [hv_eq]
      refine chCls_cons_neg _ ?_
      have h1 : c0 ≠ 'v' := ne_of_isDigit hc0 (by decide)
      have h2 : c0 ≠ 'V' := ne_of_isDigit hc0 (by decide)
      simp [h1, h2]
    have hdec : joinDots (s1 :: gs) = s1 ++ dotGroups gs := joinDots_cons s1 gs
    have hdg : chCls Char.isDigit (dotGroups gs) = [] := by
      cases gs with
      | nil => exact absurd rfl hgs
      | cons a b =>
        rw [dotGroups_cons]
        exact chCls_cons_neg _ (by decide)
    have hfuel_mem : ∀ s ∈ (s1 :: gs), s.length ≤ n := fun s hs =>
      le_trans (joinDots_length_ge _ s hs) hn
    have h1n : 1 ≤ n := by
      have h0 : (joinDots (s1 :: gs)).length ≠ 0 := by
        intro he
        exact joinDots_ne_nil h (List.eq_nil_of_length_eq_zero he)
      omega
    have hreq := first_req gs hgs hokgs [] rfl rfl
      (fun s hs => hfuel_mem s (by simp [hs]))
    rw [List.append_nil, List.append_nil] at hreq
    have hunits : FirstRem (optM (rep1M n (unitP1 n)))
        (dotGroups (gs.drop 3)) [] := by
      cases hd3 : gs.drop 3 with
      | nil =>
        rw [dotGroups_nil]
        exact first_opt_eps (rep1M_nil_of (unitP1_nil n) n)
      | cons a b =>
        apply first_opt_present
        have hlen_cnt : (a :: b).length ≤ n := by
          have e1 : (gs.drop 3).length ≤ gs.length := by
            rw [List.length_drop]
            omega
          have e2 := dotGroups_count_le gs
          have e3 := congrArg List.length hdec
          rw [List.length_append] at e3
          rw [hd3] at e1
          omega
        exact first_rep1_units (a :: b) (by simp)
          (fun s hs => hokgs s (List.drop_subset 3 gs (hd3 ▸ hs))) n n
          hlen_cnt
          (fun s hs => hfuel_mem s
            (by simp [List.drop_subset 3 gs (hd3 ▸ hs)]))
    show FirstRem (cleanPat1 n) ([' '] ++ joinDots (s1 :: gs)) []
    apply first_seq (first_star_rep (first_rep1_class isSpaceChar [' ']
      (by simp) (by decide) (joinDots (s1 :: gs)) hvspace n h1n))
    apply first_seq (first_opt_eps hvmark)
    rw [hdec]
    apply first_seq (first_rep1_class Char.isDigit s1 hs1.1 hs1.2
      (dotGroups gs) hdg n (hfuel_mem s1 (by simp)))
    exact first_seq hreq hunits

theorem cleanMatchAt_pat1_title {segs : List (List Char)} (h : SegsOK segs)
    (hlen2 : 2 ≤ segs.length) (prev : Option Char) :
    cleanMatchAt cleanPat1 prev (' ' :: joinDots segs) =
      some (' ' :: joinDots segs, []) := by
  obtain ⟨j, hj⟩ := first_cleanPat1 h hlen2
    (n := fuelOf (' ' :: joinDots segs))
    (by simp only [fuelOf, List.length_cons]; omega)
  unfold cleanMatchAt
  rw [hj]
  rw [List.find?_cons_of_pos _ (by decide)]
  simp

theorem subClean_pat1_title {segs : List (List Char)} (h : SegsOK segs)
    (hlen2 : 2 ≤ segs.length) :
    subCleanPat cleanPat1 ("Telegram ".data ++ joinDots segs) =
      "Telegram".data := by
  have hso : SplitsOff (cleanMatchAt cleanPat1) :=
    splitsOff_clean shrinking_cleanPat1 strict_cleanPat1
  have hchars : ∀ c ∈ "Telegram".data,
      isSpaceChar c = false ∧ c ≠ 'v' ∧ c ≠ 'V' ∧ c.isDigit = false := by
    decide
  have hnone : ∀ c ∈ "Telegram".data,
      ∀ (t : List Char) (prev : Option Char),
        cleanMatchAt cleanPat1 prev (c :: t) = none := by
    intro c hc t prev
    obtain ⟨hh1, hh2, hh3, hh4⟩ := hchars c hc
    exact cleanMatchAt_none (cleanPat1_nil t (fuelOf (c :: t)) hh1 hh2 hh3 hh4)
      prev
  show scanSubC [] (cleanMatchAt cleanPat1) none
    ("Telegram".data ++ (' ' :: joinDots segs)) = "Telegram".data
  rw [scan_none_run hso "Telegram".data hnone (' ' :: joinDots segs) none]
  rw [scanSubC_cons hso]
  rw [cleanMatchAt_pat1_title h hlen2]
  show "Telegram".data ++ ([] ++ scanSubC [] (cleanMatchAt cleanPat1)
    (lastO (lastO none "Telegram".data) (' ' :: joinDots segs)) []) =
    "Telegram".data
  rw [scanSubC_nil]
  simp

set_option maxRecDepth 16384 in
theorem c3_clean_name {segs : List (List Char)} (h : SegsOK segs)
    (hlen2 : 2 ≤ segs.length) :
    aggressively_clean_name (c3Title (joinDots segs))
      COMMON_VARIANT_KEYWORDS_TO_DETECT_AND_CLEAN = "Telegram" := by
  simp only [aggressively_clean_name, cleanStep]
  rw [show (c3Title (joinDots segs)).data =
    "Telegram ".data ++ joinDots segs from rfl]
  rw [subClean_pat1_title h hlen2]
  decide

/-! ### C3: the tracking key across two runs of the template family -/

theorem processEntry_tracking (p l u : String) (r : EntryResult)
    (h : processEntry p l u = some r) :
    r.tracking_id =
      tracking_id_of
        (if aggressively_clean_name p
            COMMON_VARIANT_KEYWORDS_TO_DETECT_AND_CLEAN = ""
         then "UnknownAppForTracking"
         else aggressively_clean_name p
            COMMON_VARIANT_KEYWORDS_TO_DETECT_AND_CLEAN)
        (variantForTracking
          (lsvfOf (fullVariantParts
            (combinedTextOf l ⟨unquoteL (basenameL (urlPath u.data))⟩)
            (get_file_extension_from_url u
              ⟨combinedTextOf l ⟨unquoteL (basenameL (urlPath u.data))⟩⟩)))
          (get_file_extension_from_url u
            ⟨combinedTextOf l ⟨unquoteL (basenameL (urlPath u.data))⟩⟩))
        (get_file_extension_from_url u
          ⟨combinedTextOf l ⟨unquoteL (basenameL (urlPath u.data))⟩⟩) := by
  simp only [processEntry] at h
  cases he : extract_version_from_text_or_url l
      ⟨unquoteL (basenameL (urlPath u.data))⟩ with
  | none =>
    rw [he] at h
    exact Option.noConfusion h
  | some cv =>
    rw [he] at h
    have h2 := Option.some.inj h
    rw [← h2]

set_option maxRecDepth 16384 in
/-- C3 counterexample: two runs of the same page family that differ only in
the version substring — "1.2.3" versus "1.2.3-beta", as returned by the
version extractor itself — produce different tracking keys
(`telegram_universal` versus `telegram_beta`): the alphabetic version
suffix is picked up as a variant keyword, so the key does depend on the
version. -/
theorem C3_counterexample :
    (processEntry (c3Title "1.2.3".data) (c3Link "1.2.3".data)
        (c3Url "1.2.3".data)).map
        (fun r => (r.tracking_id, r.current_version)) =
      some ("telegram_universal", "1.2.3") ∧
    (processEntry (c3Title "1.2.3-beta".data) (c3Link "1.2.3-beta".data)
        (c3Url "1.2.3-beta".data)).map
        (fun r => (r.tracking_id, r.current_version)) =
      some ("telegram_beta", "1.2.3-beta") := by
  constructor
  · decide
  · decide

/-- C3 (amended): for purely numeric dot-separated versions with the same
number of segments (at least two), the tracking key is invariant under the
version: two runs over the template page family that differ only in such a
version substring — appearing in the page title, the link text and the URL
filename — yield records with identical tracking keys. -/
theorem C3_version_invariant (segs1 segs2 : List (List Char))
    (h1 : SegsOK segs1) (h2 : SegsOK segs2)
    (hlen2 : 2 ≤ segs1.length) (hlen : segs1.length = segs2.length)
    (r1 r2 : EntryResult)
    (e1 : processEntry (c3Title (joinDots segs1)) (c3Link (joinDots segs1))
      (c3Url (joinDots segs1)) = some r1)
    (e2 : processEntry (c3Title (joinDots segs2)) (c3Link (joinDots segs2))
      (c3Url (joinDots segs2)) = some r2) :
    r1.tracking_id = r2.tracking_id := by
  rw [processEntry_tracking _ _ _ _ e1, processEntry_tracking _ _ _ _ e2]
  rw [c3_clean_name h1 hlen2, c3_clean_name h2 (by omega)]
  rw [c3_combined h1, c3_combined h2]
  rw [c3_ext (joinDots_chars h1.2), c3_ext (joinDots_chars h2.2)]
  rw [hlen]

set_option maxRecDepth 16384 in
/-- Witness for the amended C3 at the versions 9.8 and 10.20. -/
theorem C3_version_invariant_witness :
    processEntry (c3Title (joinDots [['9'], ['8']]))
        (c3Link (joinDots [['9'], ['8']]))
        (c3Url (joinDots [['9'], ['8']])) =
      some { current_version := "9.8", variant := "Universal",
             file_extension := ".apk", tracking_id := "telegram_universal",
             suggested_filename := "telegram_9.8_v9_8_universal.apk" } ∧
    processEntry (c3Title (joinDots [['1', '0'], ['2', '0']]))
        (c3Link (joinDots [['1', '0'], ['2', '0']]))
        (c3Url (joinDots [['1', '0'], ['2', '0']])) =
      some { current_version := "10.20", variant := "Universal",
             file_extension := ".apk", tracking_id := "telegram_universal",
             suggested_filename := "telegram_10.20_v10_20_universal.apk" } ∧
    EntryResult.tracking_id
        { current_version := "9.8", variant := "Universal",
          file_extension := ".apk", tracking_id := "telegram_universal",
          suggested_filename := "telegram_9.8_v9_8_universal.apk" } =
      EntryResult.tracking_id
        { current_version := "10.20", variant := "Universal",
          file_extension := ".apk", tracking_id := "telegram_universal",
          suggested_filename := "telegram_10.20_v10_20_universal.apk" } :=
  ⟨by decide, by decide,
    C3_version_invariant [['9'], ['8']] [['1', '0'], ['2', '0']]
      (by unfold SegsOK SegOK; decide) (by unfold SegsOK SegOK; decide)
      (by decide) (by decide) _ _
      (by decide) (by decide)⟩
